import Mathlib

/-
Verification development for the measure engine of the live_score repository
(src/js/measure.js).  The engine keeps one musical measure as an ordered list
of note/rest events, supports quantized note insertion and pitch removal, and
re-derives rest events so that the measure stays exactly full.

The collaborators live_score.js and note.js are not part of the sources given
to us; the definitions below that come from them are modelled from the spec
(worked scenario of section 8: whole = 16 ticks, half = 8, quarter = 4,
eighth = 2, sixteenth = 1, with denominations enumerated in ascending
conventional-denominator order whole < half < quarter < eighth < sixteenth).
Everything else is a direct shallow embedding of measure.js.
-/

namespace LiveScore

/-- Modelled from the spec: the fixed, ordered, enumerable set of supported
note-length denominations exposed by live_score.js (not in src/).  The
encoding is the conventional fraction denominator: whole = 1, half = 2,
quarter = 4, eighth = 8, sixteenth = 16, enumerated in this order. -/
def note_lengths : List Nat := [1, 2, 4, 8, 16]

/-- Modelled from the spec: live_score.note_length_to_ticks (not in src/).
In the spec's tick model a whole note is 16 ticks and a sixteenth is 1 tick,
so a denomination d is worth 16 / d ticks. -/
def note_length_to_ticks (d : Nat) : Nat := 16 / d

/-- Modelled from the spec: live_score.translate_midi_number_to_pitch
(not in src/), a deterministic map from a raw numeric pitch identifier to the
stored pitch representation.  We keep the identifier itself. -/
def translate_midi_number_to_pitch (p : Nat) : Nat := p

/-- Modelled from the spec: the rhythmic-event variant type of note.js
(not in src/).  A `note` carries a symbolic length and the pitches sounding
on it; a `rest` carries only a length.  `nullRest` models the corrupt rest
that measure.js pushes when optimal_rest_length returns null (a JS Note with
rest type and null length); it never occurs in a valid measure. -/
inductive REvent where
  | note (length : Nat) (pitches : List Nat)
  | rest (length : Nat)
  | nullRest
deriving DecidableEq

/-- Modelled from the spec: the is_note predicate of note.js. -/
def REvent.is_note : REvent → Bool
  | .note _ _ => true
  | _ => false

/-- Modelled from the spec: the is_rest predicate of note.js (the corrupt
nullRest is constructed with rest type, so it also answers true). -/
def REvent.is_rest : REvent → Bool
  | .rest _ => true
  | .nullRest => true
  | _ => false

/-- Tick length of one event: note_length_to_ticks of its symbolic length.
For nullRest the JS value would be NaN; we use 0, and valid measures never
contain a nullRest. -/
def ticksOfEvent : REvent → Nat
  | .note len _ => note_length_to_ticks len
  | .rest len => note_length_to_ticks len
  | .nullRest => 0

/-- Modelled from the spec: Note.add_note of note.js adds the incoming pitch
to the note's pitch set (chord stacking); a rest is untouched (measure.js
only calls this on notes). -/
def REvent.add_pitch : REvent → Nat → REvent
  | .note len ps, p => .note len (if p ∈ ps then ps else ps ++ [p])
  | e, _ => e

/-- Modelled from the spec: Note.remove_note followed by make_rest in
measure.js's remove_note_from_measure.  The pitch is removed from the pitch
set; if the set becomes empty the event becomes a rest of the same length. -/
def remove_pitch_result : REvent → Nat → REvent
  | .note len ps, p =>
      let ps2 := ps.filter (fun q => q ≠ p)
      if ps2 = [] then .rest len else .note len ps2
  | e, _ => e

/-- An event of a well-formed measure: a note or rest whose symbolic length
is one of the supported denominations. -/
def REvent.valid_b : REvent → Bool
  | .note len _ => note_lengths.contains len
  | .rest len => note_lengths.contains len
  | .nullRest => false

/-- Sum of the tick lengths of a sequence of events (the running prefix sums
of this quantity give each event's start tick). -/
def sum_ticks (l : List REvent) : Nat := (l.map ticksOfEvent).sum

/-- The note_info request struct (structs.js): pitch, symbolic note length,
quantization resolution, fractional x position, and the quantized tick
position field that add_note fills in and remove_note reads. -/
structure NoteInfo where
  pitch : Nat
  note_length : Nat
  quantization : Nat
  x_position : ℚ
  quantized_tick_position : Nat
deriving DecidableEq

/-- The Measure object: time signature, derived tick length, and the ordered
event sequence (measure.js stores it in this.notes). -/
structure Measure where
  num_beats : Nat
  beat_value : Nat
  num_ticks : Nat
  notes : List REvent
deriving DecidableEq

/-- measure.js calculate_beat_level: fold over the denominations, starting
from this.num_ticks, keeping any denomination that divides the tick offset,
is numerically smaller than the accumulator, and fits in the measure. -/
def calculate_beat_level (num_ticks total_ticks : Nat) : Nat :=
  note_lengths.foldl (fun beat_level note_length =>
    let ticks := note_length_to_ticks note_length
    if total_ticks % ticks = 0 ∧ note_length < beat_level ∧ ticks ≤ num_ticks then
      note_length
    else beat_level) num_ticks

/-- measure.js optimal_rest_length: among the denominations, pick the one
with d ≥ beat_position whose tick count is the closest fit from below to the
remaining span; the minimum difference accumulator starts at this.num_ticks.
Returns none exactly when the JS returns null. -/
def optimal_rest_length (num_ticks beat_position rest_span : Nat) : Option Nat :=
  (note_lengths.foldl (fun acc note_length =>
    let note_ticks := note_length_to_ticks note_length
    let tick_difference : Int := (rest_span : Int) - (note_ticks : Int)
    if beat_position ≤ note_length ∧ tick_difference < acc.1 ∧ 0 ≤ tick_difference then
      (tick_difference, some note_length)
    else acc) ((num_ticks : Int), (none : Option Nat))).2

/-- measure.js fill_space_with_rests' while loop.  The JS initializes
ticks_so_far to start_tick and never advances it, so the beat level is
computed at start_tick on every iteration.  When optimal_rest_length returns
null the JS pushes a rest with null length and exits the loop (ticks_left
becomes NaN); nullRest models that corrupt event.  The loop runs while
ticks_left is positive and every emitted rest is worth at least one tick, so
a fuel counter initialized to the initial ticks_left bounds the iteration
count; the fuel-exhausted branch is never reached. -/
def fill_go (num_ticks start_tick : Nat) : Nat → Nat → List REvent
  | _, 0 => []
  | 0, _ => []
  | fuel + 1, ticks_left =>
      match optimal_rest_length num_ticks
          (calculate_beat_level num_ticks start_tick) ticks_left with
      | none => [REvent.nullRest]
      | some rest_length =>
          REvent.rest rest_length ::
            fill_go num_ticks start_tick fuel (ticks_left - note_length_to_ticks rest_length)

/-- measure.js fill_space_with_rests: fill [start_tick, end_tick) with rests;
the loop runs while end_tick - start_tick is positive. -/
def fill_space_with_rests (num_ticks start_tick end_tick : Nat) : List REvent :=
  fill_go num_ticks start_tick (end_tick - start_tick) (end_tick - start_tick)

/-- measure.js Measure constructor plus create_empty_measure: derive the tick
length from the time signature and fill the whole measure with rests. -/
def mk_measure (num_beats beat_value : Nat) : Measure :=
  let num_ticks := num_beats * note_length_to_ticks beat_value
  { num_beats := num_beats
    beat_value := beat_value
    num_ticks := num_ticks
    notes := fill_space_with_rests num_ticks 0 num_ticks }

/-- measure.js quantize_position.  The JS seeds min_tick_difference (and a
variable quantized_tick_position), but the loop and the return statement use
the differently spelled quantized_ticks_position, so the seeded end-boundary
candidate is dead: only candidates assigned inside the loop can be returned,
and none models the JS returning the never-assigned variable.  The for loop
runs for the integers i with (i : ℚ) < num_quantized_beats, i.e. for
i < ceil(num_ticks / quantized_beat_ticks) when quantized_beat_ticks ≥ 1
(num_quantized_beats is exact here because every supported step divides a
power of two exactly in binary floating point). -/
def quantize_position (num_ticks quantization : Nat) (position : ℚ) : Option Nat :=
  let quantized_beat_ticks := note_length_to_ticks quantization
  let num_quantized_beats : ℚ := (num_ticks : ℚ) / (quantized_beat_ticks : ℚ)
  let position_in_ticks : ℚ := position * (num_ticks : ℚ)
  let min_tick_difference : ℚ :=
    if num_quantized_beats * (quantized_beat_ticks : ℚ) < (num_ticks : ℚ) then
      |(num_ticks : ℚ) - position_in_ticks|
    else (num_ticks : ℚ)
  let loop_count := if quantized_beat_ticks = 0 then 0
    else (num_ticks + quantized_beat_ticks - 1) / quantized_beat_ticks
  ((List.range loop_count).foldl (fun acc i =>
    let ticks_before_beat := i * quantized_beat_ticks
    let tick_difference : ℚ := |(ticks_before_beat : ℚ) - position_in_ticks|
    if tick_difference < acc.1 then (tick_difference, some ticks_before_beat)
    else acc) (min_tick_difference, (none : Option Nat))).2

/-- measure.js remove_rest: splice(rest_index, 1). -/
def remove_rest (notes : List REvent) (rest_index : Nat) : List REvent :=
  notes.take rest_index ++ notes.drop (rest_index + 1)

/-- The effect of the JS pattern `for i from rests.length-1 downto 0:
notes.splice(index, 0, rests[i])`: insert the whole block at index. -/
def splice_in (notes : List REvent) (index : Nat) (xs : List REvent) : List REvent :=
  notes.take index ++ xs ++ notes.drop index

/-- measure.js insert_new_note: build the note from the translated pitch and
the requested length and splice it in at the index. -/
def insert_new_note (notes : List REvent) (index : Nat) (info : NoteInfo) : List REvent :=
  splice_in notes index
    [REvent.note info.note_length [translate_midi_number_to_pitch info.pitch]]

/-- measure.js insert_rests_after_note: fill from the end of the new note to
current_position and splice the rests in at the index. -/
def insert_rests_after_note (num_ticks : Nat) (notes : List REvent)
    (current_position index : Nat) (info : NoteInfo) : List REvent :=
  let start_position := info.quantized_tick_position + note_length_to_ticks info.note_length
  splice_in notes index (fill_space_with_rests num_ticks start_position current_position)

/-- measure.js insert_rests_before_note: fill from the start of the removed
rest to the quantized position and splice the rests in at the index. -/
def insert_rests_before_note (num_ticks : Nat) (notes : List REvent)
    (current_position index : Nat) (note_to_split : REvent) (info : NoteInfo) :
    List REvent :=
  let start_position := current_position - ticksOfEvent note_to_split
  splice_in notes index
    (fill_space_with_rests num_ticks start_position info.quantized_tick_position)

/-- measure.js remove_rest_and_insert_note (exact-fit replace case). -/
def remove_rest_and_insert_note (num_ticks : Nat) (notes : List REvent)
    (current_position index : Nat) (info : NoteInfo) : List REvent :=
  let note_to_split := notes.getD index REvent.nullRest
  let notes1 := remove_rest notes index
  let end_of_rest := current_position + ticksOfEvent note_to_split
  let notes2 := insert_rests_after_note num_ticks notes1 end_of_rest index info
  insert_new_note notes2 index info

/-- measure.js split_rest_and_insert_note (split case). -/
def split_rest_and_insert_note (num_ticks : Nat) (notes : List REvent)
    (current_position index : Nat) (info : NoteInfo) : List REvent :=
  let note_to_split := notes.getD index REvent.nullRest
  let notes1 := remove_rest notes index
  let notes2 := insert_rests_after_note num_ticks notes1 current_position index info
  let notes3 := insert_new_note notes2 index info
  insert_rests_before_note num_ticks notes3 current_position index note_to_split info

/-- measure.js place_note_in_measure's scan loop (for i ≤ notes.length).
At i = notes.length the JS dereferences this.notes[i] = undefined: with
current_position = target the condition chain calls undefined.is_note (a
TypeError), and in the advance branch it reads undefined.length (also a
TypeError); none models those crashes.  JS short-circuit makes the
position checks happen first, which is why the i = length case only crashes
when the split branch does not apply. -/
def place_note_loop (num_ticks : Nat) (info : NoteInfo) (notes : List REvent) :
    Nat → Nat → Nat → Option (List REvent)
  | 0, _, _ => none
  | fuel + 1, i, current_position =>
      if h : i < notes.length then
        let e := notes.get ⟨i, h⟩
        if current_position = info.quantized_tick_position ∧ e.is_note then
          some (notes.set i (e.add_pitch (translate_midi_number_to_pitch info.pitch)))
        else if info.quantized_tick_position < current_position then
          some (split_rest_and_insert_note num_ticks notes current_position (i - 1) info)
        else if current_position = info.quantized_tick_position ∧ e.is_rest then
          some (remove_rest_and_insert_note num_ticks notes current_position i info)
        else
          place_note_loop num_ticks info notes fuel (i + 1)
            (current_position + ticksOfEvent e)
      else if i = notes.length then
        if current_position = info.quantized_tick_position then none
        else if info.quantized_tick_position < current_position then
          some (split_rest_and_insert_note num_ticks notes current_position (i - 1) info)
        else none
      else none

/-- measure.js place_note_in_measure: run the scan from index 0 and tick 0.
The for loop visits the indices 0..notes.length, i.e. notes.length + 1
iterations, which is exactly the fuel supplied here, so the fuel-exhausted
branch is never reached. -/
def place_note_in_measure (num_ticks : Nat) (notes : List REvent) (info : NoteInfo) :
    Option (List REvent) :=
  place_note_loop num_ticks info notes (notes.length + 1) 0 0

/-- measure.js add_note: quantize the x position into the request, place the
note, and return true.  none models an uncaught JS exception escaping. -/
def add_note (m : Measure) (info : NoteInfo) : Option (Measure × Bool) :=
  match quantize_position m.num_ticks info.quantization info.x_position with
  | none => none
  | some qtp =>
      let info2 := { info with quantized_tick_position := qtp }
      match place_note_in_measure m.num_ticks m.notes info2 with
      | none => none
      | some notes2 => some ({ m with notes := notes2 }, true)

/-- measure.js remove_note_from_measure's scan loop (for i ≤ notes.length).
The loop has only two branches: an exact note hit, or advance.  At
i = notes.length both remaining paths dereference this.notes[i] = undefined
(undefined.is_note or undefined.length), an uncaught TypeError, modelled by
none; no mutation has happened at that point.  On a hit, Note.remove_note
drops the pitch and make_rest converts the event when its pitch set empties
(remove_pitch_result, modelled from the spec). -/
def remove_note_loop (info : NoteInfo) (notes : List REvent) :
    Nat → Nat → Nat → Option (List REvent)
  | 0, _, _ => none
  | fuel + 1, i, current_position =>
      if h : i < notes.length then
        let e := notes.get ⟨i, h⟩
        if current_position = info.quantized_tick_position ∧ e.is_note then
          some (notes.set i
            (remove_pitch_result e (translate_midi_number_to_pitch info.pitch)))
        else
          remove_note_loop info notes fuel (i + 1) (current_position + ticksOfEvent e)
      else none

/-- measure.js remove_note_from_measure: run the scan from index 0, tick 0;
the loop bound i ≤ notes.length gives notes.length + 1 iterations of fuel. -/
def remove_note_from_measure (m : Measure) (info : NoteInfo) : Option (List REvent) :=
  remove_note_loop info m.notes (m.notes.length + 1) 0 0

/-- measure.js remove_note: no quantization happens here; the request's
quantized_tick_position field is used as it is, and true is returned. -/
def remove_note (m : Measure) (info : NoteInfo) : Option (Measure × Bool) :=
  match remove_note_from_measure m info with
  | none => none
  | some notes2 => some ({ m with notes := notes2 }, true)

/-- All events of a sequence are well-formed notes or rests. -/
def valid_events (l : List REvent) : Prop := ∀ e ∈ l, e.valid_b = true

/-! ### The three outcomes of the insertion scan -/

/-- Outcome of the merge case of place_note_in_measure: the pitch is added to
the note that starts exactly at the target tick. -/
def merge_result (notes : List REvent) (k : Nat) (info : NoteInfo) : List REvent :=
  notes.set k ((notes.getD k REvent.nullRest).add_pitch
    (translate_midi_number_to_pitch info.pitch))

/-- Outcome of the exact-fit replace case: the rest of length len that starts
at the target tick is removed, the new note is inserted at its index, and the
span from the note's end to the old rest's end is refilled with rests. -/
def replace_result (num_ticks : Nat) (notes : List REvent) (k len : Nat)
    (info : NoteInfo) : List REvent :=
  notes.take k ++
    REvent.note info.note_length [translate_midi_number_to_pitch info.pitch] ::
    (fill_space_with_rests num_ticks
      (info.quantized_tick_position + note_length_to_ticks info.note_length)
      (info.quantized_tick_position + note_length_to_ticks len) ++
     notes.drop (k + 1))

/-- Outcome of the split case: the event containing the target tick strictly
inside its span is removed and replaced by rests up to the target, the new
note, and rests from the note's end to the old event's end. -/
def split_result (num_ticks : Nat) (notes : List REvent) (k : Nat)
    (info : NoteInfo) : List REvent :=
  notes.take k ++
    fill_space_with_rests num_ticks (sum_ticks (notes.take k))
      info.quantized_tick_position ++
    REvent.note info.note_length [translate_midi_number_to_pitch info.pitch] ::
    (fill_space_with_rests num_ticks
      (info.quantized_tick_position + note_length_to_ticks info.note_length)
      (sum_ticks (notes.take (k + 1))) ++
     notes.drop (k + 1))

/-! ### The fit condition for an insertion request -/

/-- A request with quantized target tick np and note tick length T fits a
measure when, wherever the target falls inside an event's span, either the
event is a note starting exactly at the target (merge) or the new note ends
no later than that event does.  This is the side condition under which the
splice handlers generate only non-degenerate fill intervals. -/
def add_fits (notes : List REvent) (np T : Nat) : Prop :=
  ∀ k, k < notes.length → sum_ticks (notes.take k) ≤ np →
    np < sum_ticks (notes.take (k + 1)) →
    ((sum_ticks (notes.take k) = np ∧ (notes.getD k REvent.nullRest).is_note = true) ∨
      np + T ≤ sum_ticks (notes.take (k + 1)))

instance add_fits_decidable (notes : List REvent) (np T : Nat) :
    Decidable (add_fits notes np T) := by
  unfold add_fits
  exact Nat.decidableBallLT _ _

/-! ### Sequences of public calls -/

/-- A public call on a measure: add_note or remove_note with its request. -/
inductive MCall where
  | add (info : NoteInfo)
  | remove (info : NoteInfo)
deriving DecidableEq

/-- Run one public call; a JS exception (modelled none) leaves the measure
unchanged, since no mutation happens before the crash points. -/
def exec_call (m : Measure) : MCall → Measure
  | .add info =>
      match add_note m info with
      | some p => p.1
      | none => m
  | .remove info =>
      match remove_note m info with
      | some p => p.1
      | none => m

/-- Run a sequence of public calls left to right. -/
def exec_calls (m : Measure) (cs : List MCall) : Measure := cs.foldl exec_call m

/-- The caller contract on one request: suppported note length and
quantization resolution, fractional position in [0,1). -/
def info_valid (info : NoteInfo) : Prop :=
  info.note_length ∈ note_lengths ∧ info.quantization ∈ note_lengths ∧
    0 ≤ info.x_position ∧ info.x_position < 1

instance info_valid_decidable (info : NoteInfo) : Decidable (info_valid info) := by
  unfold info_valid
  infer_instance

/-- One call is acceptable on the current measure: the request satisfies the
caller contract, and for add_note the quantized note also fits inside the
event containing its target tick (the condition the amended invariant
needs). -/
def call_ok_b (m : Measure) : MCall → Bool
  | .add info =>
      decide (info_valid info) &&
      (match quantize_position m.num_ticks info.quantization info.x_position with
       | none => true
       | some qtp => decide (add_fits m.notes qtp (note_length_to_ticks info.note_length)))
  | .remove _ => true

/-- Every call of the sequence is acceptable on the measure state at which it
executes. -/
def calls_ok_b : Measure → List MCall → Bool
  | _, [] => true
  | m, c :: cs => call_ok_b m c && calls_ok_b (exec_call m c) cs

/-- The measure state invariant: the ordered event tick lengths sum to
num_ticks and every event is a well-formed note or rest. -/
def measure_ok (m : Measure) : Prop :=
  sum_ticks m.notes = m.num_ticks ∧ valid_events m.notes

instance valid_events_decidable (l : List REvent) : Decidable (valid_events l) := by
  unfold valid_events
  exact List.decidableBAll _ l

instance measure_ok_decidable (m : Measure) : Decidable (measure_ok m) := by
  unfold measure_ok
  infer_instance


/-! ### One-step unfolding equations for the fuel loops -/

theorem fill_go_succ (num_ticks start_tick fuel t : Nat) :
    fill_go num_ticks start_tick (fuel + 1) (t + 1) =
      match optimal_rest_length num_ticks
          (calculate_beat_level num_ticks start_tick) (t + 1) with
      | none => [REvent.nullRest]
      | some rest_length =>
          REvent.rest rest_length ::
            fill_go num_ticks start_tick fuel (t + 1 - note_length_to_ticks rest_length) :=
  rfl

theorem place_note_loop_succ (num_ticks : Nat) (info : NoteInfo) (notes : List REvent)
    (fuel i current_position : Nat) :
    place_note_loop num_ticks info notes (fuel + 1) i current_position =
      (if h : i < notes.length then
        if current_position = info.quantized_tick_position ∧
            (notes.get ⟨i, h⟩).is_note then
          some (notes.set i ((notes.get ⟨i, h⟩).add_pitch
            (translate_midi_number_to_pitch info.pitch)))
        else if info.quantized_tick_position < current_position then
          some (split_rest_and_insert_note num_ticks notes current_position (i - 1) info)
        else if current_position = info.quantized_tick_position ∧
            (notes.get ⟨i, h⟩).is_rest then
          some (remove_rest_and_insert_note num_ticks notes current_position i info)
        else
          place_note_loop num_ticks info notes fuel (i + 1)
            (current_position + ticksOfEvent (notes.get ⟨i, h⟩))
      else if i = notes.length then
        if current_position = info.quantized_tick_position then none
        else if info.quantized_tick_position < current_position then
          some (split_rest_and_insert_note num_ticks notes current_position (i - 1) info)
        else none
      else none) :=
  rfl

theorem remove_note_loop_succ (info : NoteInfo) (notes : List REvent)
    (fuel i current_position : Nat) :
    remove_note_loop info notes (fuel + 1) i current_position =
      (if h : i < notes.length then
        if current_position = info.quantized_tick_position ∧
            (notes.get ⟨i, h⟩).is_note then
          some (notes.set i (remove_pitch_result (notes.get ⟨i, h⟩)
            (translate_midi_number_to_pitch info.pitch)))
        else
          remove_note_loop info notes fuel (i + 1)
            (current_position + ticksOfEvent (notes.get ⟨i, h⟩))
      else none) :=
  rfl

/-! ### Basic facts about event sums and valid events -/

/-- If optimal_rest_length returns a denomination, it is a supported one that
respects the beat-level floor and fits in the remaining span. -/
theorem optimal_rest_length_mem (num_ticks beat_position rest_span d : Nat)
    (h : optimal_rest_length num_ticks beat_position rest_span = some d) :
    d ∈ note_lengths ∧ beat_position ≤ d ∧ note_length_to_ticks d ≤ rest_span := by
  simp only [optimal_rest_length, note_lengths, List.foldl_cons, List.foldl_nil,
    note_length_to_ticks] at h
  norm_num at h
  split_ifs at h <;>
    simp only [Option.some.injEq] at h <;>
    subst h <;>
    simp_all [note_lengths, note_length_to_ticks]

/-- Supported denominations are worth between 1 and 16 ticks. -/
theorem note_length_to_ticks_pos (d : Nat) (h : d ∈ note_lengths) :
    1 ≤ note_length_to_ticks d ∧ note_length_to_ticks d ≤ 16 := by
  simp only [note_lengths, List.mem_cons, List.not_mem_nil, or_false] at h
  rcases h with rfl | rfl | rfl | rfl | rfl <;> simp [note_length_to_ticks]


theorem sum_ticks_nil : sum_ticks [] = 0 := rfl

theorem sum_ticks_cons (e : REvent) (l : List REvent) :
    sum_ticks (e :: l) = ticksOfEvent e + sum_ticks l := by
  simp [sum_ticks]

theorem sum_ticks_append (a b : List REvent) :
    sum_ticks (a ++ b) = sum_ticks a + sum_ticks b := by
  simp [sum_ticks]

theorem valid_ticks_pos (e : REvent) (h : e.valid_b = true) : 1 ≤ ticksOfEvent e := by
  cases e with
  | note len ps =>
      simp only [REvent.valid_b, List.contains_iff_exists_mem_beq] at h
      obtain ⟨a, ha, hb⟩ := h
      have : len = a := by simpa using hb
      subst this
      exact (note_length_to_ticks_pos len ha).1
  | rest len =>
      simp only [REvent.valid_b, List.contains_iff_exists_mem_beq] at h
      obtain ⟨a, ha, hb⟩ := h
      have : len = a := by simpa using hb
      subst this
      exact (note_length_to_ticks_pos len ha).1
  | nullRest => simp [REvent.valid_b] at h

theorem sum_ticks_take_succ (l : List REvent) (k : Nat) (h : k < l.length) :
    sum_ticks (l.take (k + 1)) = sum_ticks (l.take k) + ticksOfEvent (l.get ⟨k, h⟩) := by
  rw [List.take_succ]
  rw [List.getElem?_eq_getElem h]
  simp only [Option.toList_some]
  rw [sum_ticks_append]
  simp [sum_ticks, List.get_eq_getElem]

theorem sum_ticks_take_le (l : List REvent) (k : Nat) :
    sum_ticks (l.take k) ≤ sum_ticks l := by
  conv_rhs => rw [← List.take_append_drop k l]
  rw [sum_ticks_append]
  omega

theorem sum_ticks_take_mono (l : List REvent) (hv : valid_events l) (j k : Nat)
    (hj : j < k) (hk : k ≤ l.length) :
    sum_ticks (l.take j) < sum_ticks (l.take k) := by
  induction k with
  | zero => omega
  | succ n ih =>
      have hn : n < l.length := by omega
      rw [sum_ticks_take_succ l n hn]
      have hpos : 1 ≤ ticksOfEvent (l.get ⟨n, hn⟩) :=
        valid_ticks_pos _ (hv _ (l.get_mem _ _))
      rcases Nat.lt_or_ge j n with hlt | hge
      · have := ih (by omega) (by omega)
        omega
      · have : j = n := by omega
        subst this
        omega

theorem sum_ticks_set (l : List REvent) (k : Nat) (e : REvent) (h : k < l.length) :
    sum_ticks (l.set k e) + ticksOfEvent (l.get ⟨k, h⟩) = sum_ticks l + ticksOfEvent e := by
  induction l generalizing k with
  | nil => simp at h
  | cons a t ih =>
      cases k with
      | zero => simp [sum_ticks_cons]; omega
      | succ n =>
          have hn : n < t.length := by simpa using h
          simp only [List.set_cons_succ, sum_ticks_cons, List.get_cons_succ]
          have := ih n hn
          omega

theorem list_decompose (l : List REvent) (k : Nat) (h : k < l.length) :
    l = l.take k ++ l.get ⟨k, h⟩ :: l.drop (k + 1) := by
  conv_lhs => rw [← List.take_append_drop k l]
  congr 1
  exact List.drop_eq_get_cons h |>.symm ▸ rfl

/-! ### Characterization of optimal_rest_length and calculate_beat_level -/

theorem optimal_rest_length_isSome (num_ticks beat_position rest_span : Nat)
    (h1 : 1 ≤ rest_span) (h2 : rest_span ≤ num_ticks) (h3 : beat_position ≤ 16) :
    ∃ d, optimal_rest_length num_ticks beat_position rest_span = some d := by
  simp only [optimal_rest_length, note_lengths, List.foldl_cons, List.foldl_nil,
    note_length_to_ticks]
  norm_num
  split_ifs <;> first
    | exact ⟨_, rfl⟩
    | (exfalso; omega)

theorem optimal_rest_length_best (num_ticks beat_position rest_span d : Nat)
    (hs : rest_span ≤ num_ticks)
    (h : optimal_rest_length num_ticks beat_position rest_span = some d) :
    ∀ d2 ∈ note_lengths, beat_position ≤ d2 → note_length_to_ticks d2 ≤ rest_span →
      note_length_to_ticks d2 ≤ note_length_to_ticks d := by
  simp only [optimal_rest_length, note_lengths, List.foldl_cons, List.foldl_nil,
    note_length_to_ticks] at h ⊢
  norm_num at h ⊢
  split_ifs at h <;>
    simp only [Option.some.injEq] at h <;>
    subst h <;>
    norm_num <;>
    omega

theorem calculate_beat_level_le (num_ticks total_ticks : Nat) (h : 1 ≤ num_ticks) :
    calculate_beat_level num_ticks total_ticks ≤ 16 := by
  simp only [calculate_beat_level, note_lengths, List.foldl_cons, List.foldl_nil,
    note_length_to_ticks]
  norm_num
  split_ifs <;> omega

/-! ### The rest filler produces only valid rests and sums exactly -/

theorem fill_go_spec (num_ticks start_tick : Nat) :
    ∀ fuel s, s ≤ fuel → s ≤ num_ticks →
      sum_ticks (fill_go num_ticks start_tick fuel s) = s ∧
      ∀ e ∈ fill_go num_ticks start_tick fuel s, ∃ d, d ∈ note_lengths ∧ e = REvent.rest d := by
  intro fuel
  induction fuel with
  | zero =>
      intro s hsf hs
      have hs0 : s = 0 := by omega
      subst hs0
      exact ⟨rfl, by intro e he; simp [fill_go] at he⟩
  | succ fuel ih =>
      intro s hsf hs
      rcases Nat.eq_zero_or_pos s with rfl | hpos
      · exact ⟨rfl, by intro e he; simp [fill_go] at he⟩
      · have hnt : 1 ≤ num_ticks := le_trans hpos hs
        have hbl : calculate_beat_level num_ticks start_tick ≤ 16 :=
          calculate_beat_level_le num_ticks start_tick hnt
        obtain ⟨d, hd⟩ := optimal_rest_length_isSome num_ticks
          (calculate_beat_level num_ticks start_tick) s hpos hs hbl
        obtain ⟨hmem, _, hle⟩ := optimal_rest_length_mem _ _ _ _ hd
        have hdp := note_length_to_ticks_pos d hmem
        obtain ⟨t, rfl⟩ : ∃ t, s = t + 1 := ⟨s - 1, by omega⟩
        have hunfold : fill_go num_ticks start_tick (fuel + 1) (t + 1) =
            REvent.rest d :: fill_go num_ticks start_tick fuel
              (t + 1 - note_length_to_ticks d) := by
          rw [fill_go_succ]
          rw [hd]
        rw [hunfold]
        have hrec := ih (t + 1 - note_length_to_ticks d) (by omega) (by omega)
        constructor
        · rw [sum_ticks_cons, hrec.1]
          simp only [ticksOfEvent]
          omega
        · intro e he
          rcases List.mem_cons.mp he with rfl | he2
          · exact ⟨d, hmem, rfl⟩
          · exact hrec.2 e he2

theorem fill_space_spec (num_ticks a b : Nat) (hb : b - a ≤ num_ticks) :
    sum_ticks (fill_space_with_rests num_ticks a b) = b - a ∧
    ∀ e ∈ fill_space_with_rests num_ticks a b, ∃ d, d ∈ note_lengths ∧ e = REvent.rest d :=
  fill_go_spec num_ticks a (b - a) (b - a) (le_refl _) hb

theorem fill_space_valid (num_ticks a b : Nat) (hb : b - a ≤ num_ticks) :
    valid_events (fill_space_with_rests num_ticks a b) := by
  intro e he
  obtain ⟨d, hd, rfl⟩ := (fill_space_spec num_ticks a b hb).2 e he
  simp only [REvent.valid_b]
  exact List.contains_iff_exists_mem_beq.mpr ⟨d, hd, by simp⟩

/-! ### Unfolding the splice-based insertion handlers -/

theorem splice_in_take (notes tail2 xs : List REvent) (k : Nat) (h : k ≤ notes.length) :
    splice_in (notes.take k ++ tail2) k xs = notes.take k ++ xs ++ tail2 := by
  have hlen : (notes.take k).length = k := by
    simp [List.length_take]
    omega
  simp [splice_in, List.take_left' hlen, List.drop_left' hlen]

theorem valid_rest_shape (e : REvent) (hv : e.valid_b = true) (hr : e.is_rest = true) :
    ∃ len, e = REvent.rest len := by
  cases e with
  | note len ps => simp [REvent.is_rest] at hr
  | rest len => exact ⟨len, rfl⟩
  | nullRest => simp [REvent.valid_b] at hv

theorem valid_note_or_rest (e : REvent) (hv : e.valid_b = true) :
    e.is_note = true ∨ e.is_rest = true := by
  cases e with
  | note len ps => left; rfl
  | rest len => right; rfl
  | nullRest => simp [REvent.valid_b] at hv

theorem remove_rest_and_insert_note_eq (num_ticks : Nat) (notes : List REvent) (k : Nat)
    (hk : k < notes.length) (info : NoteInfo) (current_position : Nat) :
    remove_rest_and_insert_note num_ticks notes current_position k info =
      notes.take k ++
        REvent.note info.note_length [translate_midi_number_to_pitch info.pitch] ::
        (fill_space_with_rests num_ticks
          (info.quantized_tick_position + note_length_to_ticks info.note_length)
          (current_position + ticksOfEvent (notes.get ⟨k, hk⟩)) ++
         notes.drop (k + 1)) := by
  have hgd : notes.getD k REvent.nullRest = notes.get ⟨k, hk⟩ := List.getD_eq_getElem notes _ hk
  simp only [remove_rest_and_insert_note, remove_rest, insert_rests_after_note,
    insert_new_note, hgd]
  rw [splice_in_take notes (notes.drop (k + 1)) _ k (le_of_lt hk)]
  rw [show notes.take k ++
        fill_space_with_rests num_ticks
          (info.quantized_tick_position + note_length_to_ticks info.note_length)
          (current_position + ticksOfEvent (notes.get ⟨k, hk⟩)) ++ notes.drop (k + 1) =
      notes.take k ++
        (fill_space_with_rests num_ticks
          (info.quantized_tick_position + note_length_to_ticks info.note_length)
          (current_position + ticksOfEvent (notes.get ⟨k, hk⟩)) ++ notes.drop (k + 1))
    from by simp]
  rw [splice_in_take notes _ _ k (le_of_lt hk)]
  simp

theorem split_rest_and_insert_note_eq (num_ticks : Nat) (notes : List REvent) (k : Nat)
    (hk : k < notes.length) (info : NoteInfo) (current_position : Nat) :
    split_rest_and_insert_note num_ticks notes current_position k info =
      notes.take k ++
        fill_space_with_rests num_ticks
          (current_position - ticksOfEvent (notes.get ⟨k, hk⟩))
          info.quantized_tick_position ++
        REvent.note info.note_length [translate_midi_number_to_pitch info.pitch] ::
        (fill_space_with_rests num_ticks
          (info.quantized_tick_position + note_length_to_ticks info.note_length)
          current_position ++
         notes.drop (k + 1)) := by
  have hgd : notes.getD k REvent.nullRest = notes.get ⟨k, hk⟩ := List.getD_eq_getElem notes _ hk
  simp only [split_rest_and_insert_note, remove_rest, insert_rests_after_note,
    insert_new_note, insert_rests_before_note, hgd]
  rw [splice_in_take notes (notes.drop (k + 1)) _ k (le_of_lt hk)]
  rw [show notes.take k ++
        fill_space_with_rests num_ticks
          (info.quantized_tick_position + note_length_to_ticks info.note_length)
          current_position ++ notes.drop (k + 1) =
      notes.take k ++
        (fill_space_with_rests num_ticks
          (info.quantized_tick_position + note_length_to_ticks info.note_length)
          current_position ++ notes.drop (k + 1))
    from by simp]
  rw [splice_in_take notes _ _ k (le_of_lt hk)]
  rw [show notes.take k ++
        [REvent.note info.note_length [translate_midi_number_to_pitch info.pitch]] ++
        (fill_space_with_rests num_ticks
          (info.quantized_tick_position + note_length_to_ticks info.note_length)
          current_position ++ notes.drop (k + 1)) =
      notes.take k ++
        ([REvent.note info.note_length [translate_midi_number_to_pitch info.pitch]] ++
         (fill_space_with_rests num_ticks
           (info.quantized_tick_position + note_length_to_ticks info.note_length)
           current_position ++ notes.drop (k + 1)))
    from by simp]
  rw [splice_in_take notes _ _ k (le_of_lt hk)]
  simp

/-- Structure theorem for the insertion scan: on a valid event sequence whose
total tick length exceeds the target tick, the scan locates the unique event
whose span [P k, P (k+1)) contains the target (P k the prefix tick sum) and
performs exactly one of merge, exact-fit replace, or split. -/
theorem place_note_loop_struct (num_ticks : Nat) (info : NoteInfo) (notes : List REvent)
    (hv : valid_events notes)
    (hlt : info.quantized_tick_position < sum_ticks notes) :
    ∀ fuel i current_position, notes.length + 1 ≤ i + fuel →
      i ≤ notes.length →
      current_position = sum_ticks (notes.take i) →
      current_position ≤ info.quantized_tick_position →
      ∃ k, k < notes.length ∧
        sum_ticks (notes.take k) ≤ info.quantized_tick_position ∧
        info.quantized_tick_position < sum_ticks (notes.take (k + 1)) ∧
        ((sum_ticks (notes.take k) = info.quantized_tick_position ∧
            (notes.getD k REvent.nullRest).is_note = true ∧
            place_note_loop num_ticks info notes fuel i current_position =
              some (merge_result notes k info)) ∨
         (∃ len, notes.getD k REvent.nullRest = REvent.rest len ∧
            sum_ticks (notes.take k) = info.quantized_tick_position ∧
            place_note_loop num_ticks info notes fuel i current_position =
              some (replace_result num_ticks notes k len info)) ∨
         (sum_ticks (notes.take k) < info.quantized_tick_position ∧
            place_note_loop num_ticks info notes fuel i current_position =
              some (split_result num_ticks notes k info))) := by
  intro fuel
  induction fuel with
  | zero =>
      intro i cp hfuel hi hcp hle
      omega
  | succ fuel ih =>
      intro i cp hfuel hi hcp hle
      rcases Nat.lt_or_ge i notes.length with hilt | hige
      · have hev : (notes.get ⟨i, hilt⟩).valid_b = true := hv _ (notes.get_mem _ _)
        have hepos : 1 ≤ ticksOfEvent (notes.get ⟨i, hilt⟩) := valid_ticks_pos _ hev
        have hgd : notes.getD i REvent.nullRest = notes.get ⟨i, hilt⟩ :=
          List.getD_eq_getElem notes _ hilt
        have hsucc : sum_ticks (notes.take (i + 1)) =
            cp + ticksOfEvent (notes.get ⟨i, hilt⟩) := by
          rw [sum_ticks_take_succ notes i hilt, hcp]
        by_cases h1 : cp = info.quantized_tick_position ∧
            (notes.get ⟨i, hilt⟩).is_note = true
        · refine ⟨i, hilt, ?_, ?_, Or.inl ⟨?_, ?_, ?_⟩⟩
          · omega
          · omega
          · omega
          · rw [hgd]; exact h1.2
          · simp only [place_note_loop]
            rw [dif_pos hilt]
            simp only [h1.1, h1.2, and_self, if_pos, merge_result, hgd]
        · by_cases h2 : cp = info.quantized_tick_position ∧
              (notes.get ⟨i, hilt⟩).is_rest = true
          · obtain ⟨len, hlen⟩ := valid_rest_shape _ hev h2.2
            refine ⟨i, hilt, ?_, ?_, Or.inr (Or.inl ⟨len, ?_, ?_, ?_⟩)⟩
            · omega
            · omega
            · rw [hgd, hlen]
            · omega
            · simp only [place_note_loop]
              rw [dif_pos hilt]
              rw [if_neg h1]
              rw [if_neg (by omega : ¬ info.quantized_tick_position < cp)]
              rw [if_pos h2]
              rw [remove_rest_and_insert_note_eq num_ticks notes i hilt info cp]
              rw [replace_result]
              rw [hlen]
              simp only [ticksOfEvent]
              rw [h2.1]
          · have hcplt : cp < info.quantized_tick_position := by
              rcases Nat.lt_or_ge cp info.quantized_tick_position with h | h
              · exact h
              · exfalso
                have heq : cp = info.quantized_tick_position := by omega
                rcases valid_note_or_rest _ hev with hn | hr
                · exact h1 ⟨heq, hn⟩
                · exact h2 ⟨heq, hr⟩
            have hplace : place_note_loop num_ticks info notes (fuel + 1) i cp =
                place_note_loop num_ticks info notes fuel (i + 1)
                  (cp + ticksOfEvent (notes.get ⟨i, hilt⟩)) := by
              rw [place_note_loop_succ]
              rw [dif_pos hilt]
              rw [if_neg h1]
              rw [if_neg (by omega : ¬ info.quantized_tick_position < cp)]
              rw [if_neg h2]
            rcases Nat.lt_or_ge info.quantized_tick_position
                (cp + ticksOfEvent (notes.get ⟨i, hilt⟩)) with hfire | hnofire
            · obtain ⟨fuel2, rfl⟩ : ∃ f2, fuel = f2 + 1 := ⟨fuel - 1, by omega⟩
              refine ⟨i, hilt, ?_, ?_, Or.inr (Or.inr ⟨?_, ?_⟩)⟩
              · omega
              · omega
              · omega
              · rw [hplace]
                have hsplit : place_note_loop num_ticks info notes (fuel2 + 1) (i + 1)
                    (cp + ticksOfEvent (notes.get ⟨i, hilt⟩)) =
                    some (split_rest_and_insert_note num_ticks notes
                      (cp + ticksOfEvent (notes.get ⟨i, hilt⟩)) i info) := by
                  rcases Nat.lt_or_ge (i + 1) notes.length with hi2 | hi2
                  · rw [place_note_loop_succ]
                    rw [dif_pos hi2]
                    rw [if_neg (by
                      intro hc
                      omega)]
                    rw [if_pos hfire]
                    simp
                  · have hi3 : i + 1 = notes.length := by omega
                    rw [place_note_loop_succ]
                    rw [dif_neg (by omega), if_pos hi3]
                    rw [if_neg (by omega : ¬ cp + ticksOfEvent (notes.get ⟨i, hilt⟩) =
                      info.quantized_tick_position)]
                    rw [if_pos hfire]
                    simp
                rw [hsplit]
                rw [split_rest_and_insert_note_eq num_ticks notes i hilt info _]
                rw [split_result]
                rw [show cp + ticksOfEvent (notes.get ⟨i, hilt⟩) -
                    ticksOfEvent (notes.get ⟨i, hilt⟩) = cp from by omega]
                rw [← hsucc, ← hcp]
            · have hrec := ih (i + 1) (cp + ticksOfEvent (notes.get ⟨i, hilt⟩))
                (by omega) (by omega) hsucc.symm hnofire
              obtain ⟨k, hk1, hk2, hk3, hcase⟩ := hrec
              refine ⟨k, hk1, hk2, hk3, ?_⟩
              rw [hplace]
              exact hcase
      · have hieq : i = notes.length := by omega
        subst hieq
        rw [List.take_length] at hcp
        omega

/-! ### Small preservation facts about events -/

theorem ticksOf_add_pitch (e : REvent) (p : Nat) :
    ticksOfEvent (e.add_pitch p) = ticksOfEvent e := by
  cases e <;> simp [REvent.add_pitch, ticksOfEvent]

theorem valid_add_pitch (e : REvent) (p : Nat) (h : e.valid_b = true) :
    (e.add_pitch p).valid_b = true := by
  cases e <;> simp_all [REvent.add_pitch, REvent.valid_b]

theorem ticksOf_remove_pitch_result (e : REvent) (p : Nat) :
    ticksOfEvent (remove_pitch_result e p) = ticksOfEvent e := by
  cases e with
  | note len ps =>
      simp only [remove_pitch_result]
      split <;> simp [ticksOfEvent]
  | rest len => rfl
  | nullRest => rfl

theorem valid_remove_pitch_result (e : REvent) (p : Nat) (h : e.valid_b = true) :
    (remove_pitch_result e p).valid_b = true := by
  cases e with
  | note len ps =>
      simp only [remove_pitch_result]
      split <;> simp_all [REvent.valid_b]
  | rest len => exact h
  | nullRest => exact h

theorem valid_events_append (a b : List REvent) (ha : valid_events a)
    (hb : valid_events b) : valid_events (a ++ b) := by
  intro e he
  rcases List.mem_append.mp he with h | h
  · exact ha e h
  · exact hb e h

theorem valid_events_cons (e : REvent) (l : List REvent) (he : e.valid_b = true)
    (hl : valid_events l) : valid_events (e :: l) := by
  intro x hx
  rcases List.mem_cons.mp hx with rfl | h
  · exact he
  · exact hl x h

theorem valid_events_take (l : List REvent) (k : Nat) (h : valid_events l) :
    valid_events (l.take k) := fun e he => h e (List.mem_of_mem_take he)

theorem valid_events_drop (l : List REvent) (k : Nat) (h : valid_events l) :
    valid_events (l.drop k) := fun e he => h e (List.mem_of_mem_drop he)

theorem valid_events_set (l : List REvent) (k : Nat) (e : REvent)
    (hl : valid_events l) (he : e.valid_b = true) : valid_events (l.set k e) := by
  intro x hx
  rcases List.mem_or_eq_of_mem_set hx with h | rfl
  · exact hl x h
  · exact he

theorem sum_ticks_parts (l : List REvent) (k : Nat) (h : k < l.length) :
    sum_ticks l =
      sum_ticks (l.take k) + ticksOfEvent (l.get ⟨k, h⟩) + sum_ticks (l.drop (k + 1)) := by
  conv_lhs => rw [list_decompose l k h]
  rw [sum_ticks_append, sum_ticks_cons]
  omega

/-! ### When the target tick is past the whole measure the scan crashes -/

theorem place_note_loop_none (num_ticks : Nat) (info : NoteInfo) (notes : List REvent)
    (hv : valid_events notes)
    (hge : sum_ticks notes ≤ info.quantized_tick_position) :
    ∀ fuel i current_position, notes.length + 1 ≤ i + fuel → i ≤ notes.length →
      current_position = sum_ticks (notes.take i) →
      place_note_loop num_ticks info notes fuel i current_position = none := by
  intro fuel
  induction fuel with
  | zero =>
      intro i cp hfuel hi hcp
      omega
  | succ fuel ih =>
      intro i cp hfuel hi hcp
      rcases Nat.lt_or_ge i notes.length with hilt | hige
      · have hev : (notes.get ⟨i, hilt⟩).valid_b = true := hv _ (notes.get_mem _ _)
        have hepos : 1 ≤ ticksOfEvent (notes.get ⟨i, hilt⟩) := valid_ticks_pos _ hev
        have hlt2 : sum_ticks (notes.take i) < sum_ticks notes := by
          have h1 := sum_ticks_take_succ notes i hilt
          have h2 := sum_ticks_take_le notes (i + 1)
          omega
        have hcplt : cp < info.quantized_tick_position := by omega
        rw [place_note_loop_succ]
        rw [dif_pos hilt]
        rw [if_neg (by
          intro hc
          omega)]
        rw [if_neg (by omega)]
        rw [if_neg (by
          intro hc
          omega)]
        exact ih (i + 1) (cp + ticksOfEvent (notes.get ⟨i, hilt⟩)) (by omega) (by omega)
          (by rw [sum_ticks_take_succ notes i hilt, hcp])
      · have hieq : i = notes.length := by omega
        subst hieq
        rw [List.take_length] at hcp
        rw [place_note_loop_succ]
        rw [dif_neg (by omega), if_pos rfl]
        by_cases hq : cp = info.quantized_tick_position
        · rw [if_pos hq]
        · rw [if_neg hq, if_neg (by omega)]

/-! ### The insertion scan preserves the tick sum and validity -/

theorem place_preserves (num_ticks : Nat) (info : NoteInfo) (notes notes2 : List REvent)
    (hv : valid_events notes)
    (hsum : sum_ticks notes ≤ num_ticks)
    (hlen2 : info.note_length ∈ note_lengths)
    (hfits : add_fits notes info.quantized_tick_position
      (note_length_to_ticks info.note_length))
    (h : place_note_in_measure num_ticks notes info = some notes2) :
    sum_ticks notes2 = sum_ticks notes ∧ valid_events notes2 := by
  rcases Nat.lt_or_ge info.quantized_tick_position (sum_ticks notes) with hlt | hge
  · obtain ⟨k, hk, hk1, hk2, hcase⟩ := place_note_loop_struct num_ticks info notes hv hlt
      (notes.length + 1) 0 0 (by omega) (by omega) (by simp [sum_ticks]) (by omega)
    have hgd : notes.getD k REvent.nullRest = notes.get ⟨k, hk⟩ :=
      List.getD_eq_getElem notes _ hk
    have hparts := sum_ticks_parts notes k hk
    have hsucc := sum_ticks_take_succ notes k hk
    have hnotevalid : (REvent.note info.note_length
        [translate_midi_number_to_pitch info.pitch]).valid_b = true := by
      simp only [REvent.valid_b]
      exact List.contains_iff_exists_mem_beq.mpr ⟨info.note_length, hlen2, by simp⟩
    have hT := note_length_to_ticks_pos info.note_length hlen2
    rcases hcase with ⟨hknp, hknote, hplace⟩ | ⟨len, hlen, hknp, hplace⟩ | ⟨hklt, hplace⟩
    · rw [place_note_in_measure] at h
      rw [hplace] at h
      have h2 : notes2 = merge_result notes k info := by
        injection h with h3
        exact h3.symm
      subst h2
      constructor
      · unfold merge_result
        rw [hgd]
        have := sum_ticks_set notes k ((notes.get ⟨k, hk⟩).add_pitch
          (translate_midi_number_to_pitch info.pitch)) hk
        rw [ticksOf_add_pitch] at this
        omega
      · refine valid_events_set _ _ _ hv (valid_add_pitch _ _ ?_)
        rw [hgd]
        exact hv _ (notes.get_mem _ _)
    · -- exact-fit replace case
      rw [place_note_in_measure] at h
      rw [hplace] at h
      have h2 : notes2 = replace_result num_ticks notes k len info := by
        injection h with h3
        exact h3.symm
      subst h2
      have hget : notes.get ⟨k, hk⟩ = REvent.rest len := by rw [← hgd, hlen]
      have hticks : ticksOfEvent (notes.get ⟨k, hk⟩) = note_length_to_ticks len := by
        rw [hget]
        rfl
      have hTL : info.quantized_tick_position + note_length_to_ticks info.note_length ≤
          sum_ticks (notes.take (k + 1)) := by
        rcases hfits k hk hk1 hk2 with ⟨_, hnote⟩ | hfit
        · rw [hlen] at hnote
          simp [REvent.is_note] at hnote
        · exact hfit
      have hLnt : note_length_to_ticks len ≤ num_ticks := by omega
      have hfill := fill_space_spec num_ticks
        (info.quantized_tick_position + note_length_to_ticks info.note_length)
        (info.quantized_tick_position + note_length_to_ticks len) (by omega)
      constructor
      · unfold replace_result
        rw [sum_ticks_append, sum_ticks_cons, sum_ticks_append]
        rw [hfill.1]
        simp only [ticksOfEvent]
        omega
      · unfold replace_result
        refine valid_events_append _ _ (valid_events_take _ _ hv)
          (valid_events_cons _ _ hnotevalid (valid_events_append _ _ ?_
            (valid_events_drop _ _ hv)))
        intro e he
        obtain ⟨d, hd, rfl⟩ := hfill.2 e he
        simp only [REvent.valid_b]
        exact List.contains_iff_exists_mem_beq.mpr ⟨d, hd, by simp⟩
    · -- split case
      rw [place_note_in_measure] at h
      rw [hplace] at h
      have h2 : notes2 = split_result num_ticks notes k info := by
        injection h with h3
        exact h3.symm
      subst h2
      have hTL : info.quantized_tick_position + note_length_to_ticks info.note_length ≤
          sum_ticks (notes.take (k + 1)) := by
        rcases hfits k hk hk1 hk2 with ⟨heq, _⟩ | hfit
        · omega
        · exact hfit
      have hfillB := fill_space_spec num_ticks (sum_ticks (notes.take k))
        info.quantized_tick_position (by
          have := sum_ticks_take_le notes (k + 1)
          omega)
      have hfillA := fill_space_spec num_ticks
        (info.quantized_tick_position + note_length_to_ticks info.note_length)
        (sum_ticks (notes.take (k + 1))) (by
          have := sum_ticks_take_le notes (k + 1)
          omega)
      constructor
      · unfold split_result
        rw [sum_ticks_append, sum_ticks_append, sum_ticks_cons, sum_ticks_append]
        rw [hfillB.1, hfillA.1]
        simp only [ticksOfEvent]
        omega
      · unfold split_result
        refine valid_events_append _ _ (valid_events_append _ _
          (valid_events_take _ _ hv) ?_)
          (valid_events_cons _ _ hnotevalid (valid_events_append _ _ ?_
            (valid_events_drop _ _ hv)))
        · intro e he
          obtain ⟨d, hd, rfl⟩ := hfillB.2 e he
          simp only [REvent.valid_b]
          exact List.contains_iff_exists_mem_beq.mpr ⟨d, hd, by simp⟩
        · intro e he
          obtain ⟨d, hd, rfl⟩ := hfillA.2 e he
          simp only [REvent.valid_b]
          exact List.contains_iff_exists_mem_beq.mpr ⟨d, hd, by simp⟩
  · have := place_note_loop_none num_ticks info notes hv hge (notes.length + 1) 0 0
      (by omega) (by omega) (by simp [sum_ticks])
    rw [place_note_in_measure] at h
    rw [this] at h
    exact absurd h (by simp)

/-! ### Facts about the removal scan -/

theorem remove_loop_preserves (info : NoteInfo) (notes : List REvent)
    (hv : valid_events notes) :
    ∀ fuel i current_position notes2,
      remove_note_loop info notes fuel i current_position = some notes2 →
      sum_ticks notes2 = sum_ticks notes ∧ valid_events notes2 := by
  intro fuel
  induction fuel with
  | zero =>
      intro i cp notes2 h
      exact absurd h (by simp [remove_note_loop])
  | succ fuel ih =>
      intro i cp notes2 h
      rw [remove_note_loop_succ] at h
      rcases Nat.lt_or_ge i notes.length with hilt | hige
      · rw [dif_pos hilt] at h
        by_cases hc : cp = info.quantized_tick_position ∧
            (notes.get ⟨i, hilt⟩).is_note = true
        · rw [if_pos hc] at h
          have h2 : notes2 = notes.set i (remove_pitch_result (notes.get ⟨i, hilt⟩)
              (translate_midi_number_to_pitch info.pitch)) := by
            injection h with h3
            exact h3.symm
          subst h2
          have hev : (notes.get ⟨i, hilt⟩).valid_b = true := hv _ (notes.get_mem _ _)
          constructor
          · have := sum_ticks_set notes i (remove_pitch_result (notes.get ⟨i, hilt⟩)
              (translate_midi_number_to_pitch info.pitch)) hilt
            rw [ticksOf_remove_pitch_result] at this
            omega
          · exact valid_events_set _ _ _ hv (valid_remove_pitch_result _ _ hev)
        · rw [if_neg hc] at h
          exact ih (i + 1) (cp + ticksOfEvent (notes.get ⟨i, hilt⟩)) notes2 h
      · rw [dif_neg (by omega)] at h
        exact absurd h (by simp)

theorem remove_loop_finds (info : NoteInfo) (notes : List REvent)
    (hv : valid_events notes) (k : Nat) (hk : k < notes.length)
    (hnp : sum_ticks (notes.take k) = info.quantized_tick_position)
    (hnote : (notes.get ⟨k, hk⟩).is_note = true) :
    ∀ fuel i current_position, k < i + fuel → i ≤ k →
      current_position = sum_ticks (notes.take i) →
      remove_note_loop info notes fuel i current_position =
        some (notes.set k (remove_pitch_result (notes.get ⟨k, hk⟩)
          (translate_midi_number_to_pitch info.pitch))) := by
  intro fuel
  induction fuel with
  | zero =>
      intro i cp hfuel hi hcp
      omega
  | succ fuel ih =>
      intro i cp hfuel hi hcp
      rw [remove_note_loop_succ]
      rcases Nat.lt_or_ge i k with hilt | hige
      · have hik : i < notes.length := by omega
        have hmono : sum_ticks (notes.take i) < sum_ticks (notes.take k) :=
          sum_ticks_take_mono notes hv i k hilt (by omega)
        rw [dif_pos hik]
        rw [if_neg (by
          intro hc
          omega)]
        exact ih (i + 1) (cp + ticksOfEvent (notes.get ⟨i, hik⟩)) (by omega) (by omega)
          (by rw [sum_ticks_take_succ notes i hik, hcp])
      · have hieq : i = k := by omega
        subst hieq
        rw [dif_pos hk]
        rw [if_pos ⟨by omega, hnote⟩]

theorem remove_loop_congr (notes : List REvent) (info1 info2 : NoteInfo)
    (hq : info1.quantized_tick_position = info2.quantized_tick_position)
    (hp : info1.pitch = info2.pitch) :
    ∀ fuel i current_position,
      remove_note_loop info1 notes fuel i current_position =
        remove_note_loop info2 notes fuel i current_position := by
  intro fuel
  induction fuel with
  | zero =>
      intro i cp
      rfl
  | succ fuel ih =>
      intro i cp
      rw [remove_note_loop_succ, remove_note_loop_succ]
      rcases Nat.lt_or_ge i notes.length with hilt | hige
      · rw [dif_pos hilt, dif_pos hilt]
        rw [hq, hp]
        by_cases hc : cp = info2.quantized_tick_position ∧
            (notes.get ⟨i, hilt⟩).is_note = true
        · rw [if_pos hc, if_pos hc]
        · rw [if_neg hc, if_neg hc]
          exact ih (i + 1) (cp + ticksOfEvent (notes.get ⟨i, hilt⟩))
      · rw [dif_neg (by omega), dif_neg (by omega)]

/-! ### Characterization of the quantizer -/

theorem loop_count_iff (num_ticks step j : Nat) (hstep : 1 ≤ step) (hnt : 1 ≤ num_ticks) :
    j < (num_ticks + step - 1) / step ↔ j * step < num_ticks := by
  constructor
  · intro h
    have h2 : j + 1 ≤ (num_ticks + step - 1) / step := h
    rw [Nat.le_div_iff_mul_le hstep] at h2
    rw [add_mul, one_mul] at h2
    omega
  · intro h
    have h2 : (j + 1) * step ≤ num_ticks + step - 1 := by
      rw [add_mul, one_mul]
      omega
    have h3 : j + 1 ≤ (num_ticks + step - 1) / step :=
      (Nat.le_div_iff_mul_le hstep).mpr h2
    omega

theorem quantize_fold_spec (step num_ticks : Nat) (pos : ℚ)
    (hpos0 : 0 ≤ pos) (hposlt : pos < (num_ticks : ℚ)) :
    ∀ n, 1 ≤ n →
      ∃ j, j < n ∧
        (List.range n).foldl (fun acc i =>
          if |((i * step : Nat) : ℚ) - pos| < acc.1 then
            (|((i * step : Nat) : ℚ) - pos|, some (i * step))
          else acc) (((num_ticks : ℚ)), (none : Option Nat)) =
          (|((j * step : Nat) : ℚ) - pos|, some (j * step)) ∧
        (∀ j2, j2 < n → |((j * step : Nat) : ℚ) - pos| ≤ |((j2 * step : Nat) : ℚ) - pos|) ∧
        (∀ j2, j2 < n →
          |((j2 * step : Nat) : ℚ) - pos| = |((j * step : Nat) : ℚ) - pos| → j ≤ j2) := by
  intro n
  induction n with
  | zero => omega
  | succ n ih =>
      intro _
      rcases Nat.eq_zero_or_pos n with rfl | hn
      · refine ⟨0, by omega, ?_, ?_, ?_⟩
        · have habs : |((0 * step : Nat) : ℚ) - pos| = pos := by
            simp [abs_of_nonneg hpos0]
          simp only [List.range_succ, List.range_zero, List.nil_append,
            List.foldl_cons, List.foldl_nil]
          rw [if_pos (by rw [habs]; exact hposlt)]
        · intro j2 hj2
          have : j2 = 0 := by omega
          subst this
          exact le_refl _
        · intro j2 hj2 _
          omega
      · obtain ⟨j, hj, heq, hmin, htie⟩ := ih hn
        rw [List.range_succ, List.foldl_append, heq, List.foldl_cons, List.foldl_nil]
        by_cases hlt : |((n * step : Nat) : ℚ) - pos| < |((j * step : Nat) : ℚ) - pos|
        · refine ⟨n, by omega, by rw [if_pos hlt], ?_, ?_⟩
          · intro j2 hj2
            rcases Nat.lt_or_ge j2 n with h2 | h2
            · exact le_trans (le_of_lt hlt) (hmin j2 h2)
            · have : j2 = n := by omega
              subst this
              exact le_refl _
          · intro j2 hj2 habs
            rcases Nat.lt_or_ge j2 n with h2 | h2
            · exfalso
              have := hmin j2 h2
              rw [habs] at this
              exact absurd (lt_of_lt_of_le hlt this) (lt_irrefl _)
            · omega
        · refine ⟨j, by omega, by rw [if_neg hlt], ?_, ?_⟩
          · intro j2 hj2
            rcases Nat.lt_or_ge j2 n with h2 | h2
            · exact hmin j2 h2
            · have : j2 = n := by omega
              subst this
              exact le_of_not_lt hlt
          · intro j2 hj2 habs
            rcases Nat.lt_or_ge j2 n with h2 | h2
            · exact htie j2 h2 habs
            · omega

theorem quantize_position_spec (num_ticks quantization : Nat) (position : ℚ)
    (hq : quantization ∈ note_lengths) (hnt : 1 ≤ num_ticks)
    (h0 : 0 ≤ position) (h1 : position < 1) :
    ∃ t, quantize_position num_ticks quantization position = some t ∧
      (∃ j, t = j * note_length_to_ticks quantization) ∧
      t < num_ticks ∧
      (∀ j, j * note_length_to_ticks quantization < num_ticks →
        |(t : ℚ) - position * num_ticks| ≤
          |((j * note_length_to_ticks quantization : Nat) : ℚ) - position * num_ticks|) ∧
      (∀ j, j * note_length_to_ticks quantization < num_ticks →
        |((j * note_length_to_ticks quantization : Nat) : ℚ) - position * num_ticks| =
          |(t : ℚ) - position * num_ticks| →
        t ≤ j * note_length_to_ticks quantization) := by
  have hstep : 1 ≤ note_length_to_ticks quantization :=
    (note_length_to_ticks_pos quantization hq).1
  have hstepQ : ((note_length_to_ticks quantization : Nat) : ℚ) ≠ 0 := by
    simp only [ne_eq, Nat.cast_eq_zero]
    omega
  have hpos0 : 0 ≤ position * (num_ticks : ℚ) :=
    mul_nonneg h0 (Nat.cast_nonneg _)
  have hposlt : position * (num_ticks : ℚ) < (num_ticks : ℚ) := by
    have hntQ : (0 : ℚ) < (num_ticks : ℚ) := by
      simp only [Nat.cast_pos]
      omega
    calc position * (num_ticks : ℚ) < 1 * (num_ticks : ℚ) :=
          mul_lt_mul_of_pos_right h1 hntQ
      _ = (num_ticks : ℚ) := one_mul _
  have hN1 : 1 ≤ (num_ticks + note_length_to_ticks quantization - 1) /
      note_length_to_ticks quantization := by
    rw [Nat.le_div_iff_mul_le hstep, one_mul]
    omega
  obtain ⟨j, hj, heq, hmin, htie⟩ := quantize_fold_spec (note_length_to_ticks quantization)
    num_ticks (position * (num_ticks : ℚ)) hpos0 hposlt
    ((num_ticks + note_length_to_ticks quantization - 1) /
      note_length_to_ticks quantization) hN1
  have hinit : ¬ ((num_ticks : ℚ) / ((note_length_to_ticks quantization : Nat) : ℚ) *
      ((note_length_to_ticks quantization : Nat) : ℚ) < (num_ticks : ℚ)) := by
    rw [div_mul_cancel₀ _ hstepQ]
    exact lt_irrefl _
  refine ⟨j * note_length_to_ticks quantization, ?_, ⟨j, rfl⟩, ?_, ?_, ?_⟩
  · simp only [quantize_position]
    rw [if_neg hinit]
    rw [if_neg (by omega : ¬ note_length_to_ticks quantization = 0)]
    rw [heq]
  · exact (loop_count_iff num_ticks (note_length_to_ticks quantization) j hstep hnt).mp hj
  · intro j2 hj2
    exact hmin j2 ((loop_count_iff num_ticks (note_length_to_ticks quantization) j2
      hstep hnt).mpr hj2)
  · intro j2 hj2 habs
    have := htie j2 ((loop_count_iff num_ticks (note_length_to_ticks quantization) j2
      hstep hnt).mpr hj2) habs
    exact Nat.mul_le_mul_right _ this

theorem exec_call_preserves (m : Measure) (c : MCall)
    (hm : measure_ok m) (hc : call_ok_b m c = true) : measure_ok (exec_call m c) := by
  cases c with
  | add info =>
      simp only [call_ok_b, Bool.and_eq_true, decide_eq_true_eq] at hc
      cases ha : add_note m info with
      | none =>
          have hgoal : exec_call m (MCall.add info) = m := by
            simp [exec_call, ha]
          rw [hgoal]
          exact hm
      | some p =>
          have hgoal : exec_call m (MCall.add info) = p.1 := by
            simp [exec_call, ha]
          rw [hgoal]
          unfold add_note at ha
          cases hquant : quantize_position m.num_ticks info.quantization
              info.x_position with
          | none =>
              rw [hquant] at ha
              exact absurd ha (by simp)
          | some qtp =>
              rw [hquant] at ha
              dsimp only at ha
              rw [hquant] at hc
              simp only [decide_eq_true_eq] at hc
              cases hplace : place_note_in_measure m.num_ticks m.notes
                  { info with quantized_tick_position := qtp } with
              | none =>
                  rw [hplace] at ha
                  exact absurd ha (by simp)
              | some notes2 =>
                  rw [hplace] at ha
                  simp only [Option.some.injEq] at ha
                  have hp1 : p.1 = { m with notes := notes2 } := by rw [← ha]
                  rw [hp1]
                  have hpres := place_preserves m.num_ticks
                    { info with quantized_tick_position := qtp } m.notes notes2 hm.2
                    (le_of_eq hm.1) hc.1.1 hc.2 hplace
                  exact ⟨by simpa [hpres.1] using hm.1, hpres.2⟩
  | remove info =>
      cases hr : remove_note m info with
      | none =>
          have hgoal : exec_call m (MCall.remove info) = m := by
            simp [exec_call, hr]
          rw [hgoal]
          exact hm
      | some p =>
          have hgoal : exec_call m (MCall.remove info) = p.1 := by
            simp [exec_call, hr]
          rw [hgoal]
          unfold remove_note at hr
          cases hrem : remove_note_from_measure m info with
          | none =>
              rw [hrem] at hr
              exact absurd hr (by simp)
          | some notes2 =>
              rw [hrem] at hr
              simp only [Option.some.injEq] at hr
              have hp1 : p.1 = { m with notes := notes2 } := by rw [← hr]
              rw [hp1]
              have hpres := remove_loop_preserves info m.notes hm.2
                (m.notes.length + 1) 0 0 notes2 hrem
              exact ⟨by simpa [hpres.1] using hm.1, hpres.2⟩

theorem exec_calls_preserves (m : Measure) (cs : List MCall)
    (hm : measure_ok m) (hcs : calls_ok_b m cs = true) :
    measure_ok (exec_calls m cs) := by
  induction cs generalizing m with
  | nil => exact hm
  | cons c cs ih =>
      simp only [calls_ok_b, Bool.and_eq_true] at hcs
      have hstep := exec_call_preserves m c hm hcs.1
      have : exec_calls m (c :: cs) = exec_calls (exec_call m c) cs := by
        simp [exec_calls]
      rw [this]
      exact ih (exec_call m c) hstep hcs.2

theorem calls_ok_b_append_left (cs1 : List MCall) :
    ∀ (m : Measure) (cs2 : List MCall), calls_ok_b m (cs1 ++ cs2) = true →
      calls_ok_b m cs1 = true := by
  induction cs1 with
  | nil => intro m cs2 _; rfl
  | cons c cs ih =>
      intro m cs2 h
      simp only [List.cons_append, calls_ok_b, Bool.and_eq_true] at h ⊢
      exact ⟨h.1, ih (exec_call m c) cs2 h.2⟩

/-! ### Further list and index helpers -/

theorem sum_ticks_take_le_take (l : List REvent) (a b : Nat) (hab : a ≤ b) :
    sum_ticks (l.take a) ≤ sum_ticks (l.take b) := by
  have h := sum_ticks_take_le (l.take b) a
  rw [List.take_take, min_eq_left hab] at h
  exact h

theorem containing_index_unique (l : List REvent) (np j k : Nat)
    (hj1 : sum_ticks (l.take j) ≤ np) (hj2 : np < sum_ticks (l.take (j + 1)))
    (hk1 : sum_ticks (l.take k) ≤ np) (hk2 : np < sum_ticks (l.take (k + 1))) :
    j = k := by
  rcases Nat.lt_trichotomy j k with h | h | h
  · have := sum_ticks_take_le_take l (j + 1) k h
    omega
  · exact h
  · have := sum_ticks_take_le_take l (k + 1) j h
    omega

theorem getD_at_append (A B : List REvent) (x : REvent) :
    (A ++ x :: B).getD A.length REvent.nullRest = x := by
  have h : A.length < (A ++ x :: B).length := by
    simp
  rw [List.getD_eq_getElem _ _ h]
  rw [List.getElem_append_right (le_refl A.length)]
  simp

theorem take_at_append (A B : List REvent) : (A ++ B).take A.length = A :=
  List.take_left A B

theorem remove_pitch_single (len p : Nat) :
    remove_pitch_result (REvent.note len [p]) p = REvent.rest len := by
  simp [remove_pitch_result]

theorem valid_b_len_mem (len : Nat) (h : note_lengths.contains len = true) :
    len ∈ note_lengths := by
  rw [List.contains_iff_exists_mem_beq] at h
  obtain ⟨a, ha, hb⟩ := h
  have : len = a := by simpa using hb
  subst this
  exact ha

/-! ### Evaluations of the model at the concrete scenarios of the claims -/

theorem eval_mk_4_4 : mk_measure 4 4 = ⟨4, 4, 16, [REvent.rest 1]⟩ := by decide

theorem eval_mk_1_4 : mk_measure 1 4 = ⟨1, 4, 4, [REvent.rest 4]⟩ := by decide

theorem eval_mk_2_4 : mk_measure 2 4 = ⟨2, 4, 8, [REvent.rest 2]⟩ := by decide

theorem eval_quantize_16_4_half : quantize_position 16 4 (1/2) = some 8 := by
  simp [quantize_position, note_length_to_ticks]
  norm_num [List.range_succ]

theorem eval_quantize_16_4_0 : quantize_position 16 4 0 = some 0 := by
  simp [quantize_position, note_length_to_ticks]
  norm_num [List.range_succ]

theorem eval_quantize_4_4_0 : quantize_position 4 4 0 = some 0 := by
  simp [quantize_position, note_length_to_ticks]
  norm_num [List.range_succ]

theorem eval_quantize_8_2_0 : quantize_position 8 2 0 = some 0 := by
  simp [quantize_position, note_length_to_ticks]
  norm_num [List.range_succ]

theorem eval_quantize_6_4 : quantize_position 6 4 (11/12) = some 4 := by
  simp [quantize_position, note_length_to_ticks]
  norm_num [List.range_succ]
  rw [show |(3:ℚ)/2| = 3/2 from abs_of_nonneg (by norm_num)]
  rw [show |(11:ℚ)/2| = 11/2 from abs_of_nonneg (by norm_num)]
  norm_num

theorem eval_add_quarter_at_half : add_note (mk_measure 4 4) ⟨60, 4, 4, 1/2, 0⟩ =
    some (⟨4, 4, 16, [REvent.rest 2, REvent.note 4 [60], REvent.rest 4]⟩, true) := by
  rw [eval_mk_4_4]
  unfold add_note
  dsimp only
  rw [eval_quantize_16_4_half]
  rfl

theorem eval_add_half_in_one_beat : add_note (mk_measure 1 4) ⟨60, 2, 4, 0, 0⟩ =
    some (⟨1, 4, 4, [REvent.note 2 [60]]⟩, true) := by
  rw [eval_mk_1_4]
  unfold add_note
  dsimp only
  rw [eval_quantize_4_4_0]
  rfl

theorem eval_add_whole_in_two_beats : add_note (mk_measure 2 4) ⟨60, 1, 2, 0, 0⟩ =
    some (⟨2, 4, 8, [REvent.note 1 [60]]⟩, true) := by
  rw [eval_mk_2_4]
  unfold add_note
  dsimp only
  rw [eval_quantize_8_2_0]
  rfl

theorem eval_add_merge : add_note ⟨4, 4, 16, [REvent.note 1 [61]]⟩ ⟨60, 4, 4, 0, 0⟩ =
    some (⟨4, 4, 16, [REvent.note 1 [61, 60]]⟩, true) := by
  unfold add_note
  dsimp only
  rw [eval_quantize_16_4_0]
  rfl

/-! ### Indexed variants of the append lemmas and the removal closer -/

theorem getD_at_append2 (A B : List REvent) (x : REvent) (n : Nat) (h : A.length = n) :
    (A ++ x :: B).getD n REvent.nullRest = x := by
  subst h
  exact getD_at_append A B x

theorem take_at_append2 (A B : List REvent) (n : Nat) (h : A.length = n) :
    (A ++ B).take n = A := by
  subst h
  exact take_at_append A B

/-- After an add has placed a fresh single-pitch note at index k with prefix
tick sum qtp, removing that pitch at the same quantized tick turns exactly
that event into a rest of the note's own length, with no refill and the
total tick sum intact. -/
theorem add_then_remove_finish (m : Measure) (info : NoteInfo) (qtp : Nat)
    (notes1 : List REvent) (k : Nat)
    (hk : k < notes1.length)
    (hvalid : valid_events notes1)
    (hsum1 : sum_ticks notes1 = m.num_ticks)
    (hgetd : notes1.getD k REvent.nullRest =
      REvent.note info.note_length [translate_midi_number_to_pitch info.pitch])
    (htake : sum_ticks (notes1.take k) = qtp) :
    remove_note (Measure.mk m.num_beats m.beat_value m.num_ticks notes1)
        { info with quantized_tick_position := qtp } =
      some (Measure.mk m.num_beats m.beat_value m.num_ticks
        (notes1.set k (REvent.rest info.note_length)), true) ∧
    sum_ticks (notes1.set k (REvent.rest info.note_length)) = m.num_ticks := by
  have hget : notes1.get ⟨k, hk⟩ = REvent.note info.note_length
      [translate_midi_number_to_pitch info.pitch] := by
    rw [List.get_eq_getElem]
    rw [← List.getD_eq_getElem notes1 REvent.nullRest hk]
    exact hgetd
  have hnote : (notes1.get ⟨k, hk⟩).is_note = true := by
    rw [hget]
    rfl
  have hpp : ({ info with quantized_tick_position := qtp } : NoteInfo).pitch =
      info.pitch := rfl
  have hrem := remove_loop_finds { info with quantized_tick_position := qtp } notes1
    hvalid k hk htake hnote (notes1.length + 1) 0 0 (by omega) (by omega)
    (by simp [sum_ticks])
  rw [hget, hpp, remove_pitch_single] at hrem
  constructor
  · unfold remove_note remove_note_from_measure
    dsimp only
    rw [hrem]
  · have hset := sum_ticks_set notes1 k (REvent.rest info.note_length) hk
    rw [hget] at hset
    simp only [ticksOfEvent] at hset
    omega

/-! ### The claims -/

/-- C1 (counterexample): the claim as stated is false on the code.  On a
fresh one-beat-of-quarter measure (num_ticks = 4, events summing to 4) the
caller-contract-satisfying request add_note(pitch 60, length half,
quantization quarter, fractional position 0) succeeds and leaves a single
half note, whose events sum to 8 ≠ 4, so the duration invariant is broken by
a contract-satisfying public call (the inserted note is longer than the rest
at its target, and the code fills the negative leftover interval with
nothing). -/
theorem C1_counterexample :
    measure_ok (mk_measure 1 4) ∧
    info_valid ⟨60, 2, 4, 0, 0⟩ ∧
    add_note (mk_measure 1 4) ⟨60, 2, 4, 0, 0⟩ =
      some (⟨1, 4, 4, [REvent.note 2 [60]]⟩, true) ∧
    (mk_measure 1 4).num_ticks = 4 ∧
    sum_ticks [REvent.note 2 [60]] = 8 :=
  ⟨by decide, by norm_num [info_valid, note_lengths], eval_add_half_in_one_beat,
    by decide, by decide⟩

/-- C1 (amended): for every measure satisfying the duration invariant (event
tick lengths sum to num_ticks, all events well-formed) and every sequence of
public add_note/remove_note calls whose requests satisfy the caller contract
and, additionally, whose add_note requests fit inside the event containing
their quantized target tick, the sum of note_length_to_ticks(event.length)
over the ordered events equals num_ticks before and after each call of the
sequence (stated for every prefix of the call sequence). -/
theorem C1_invariant_amended (m : Measure) (cs : List MCall)
    (hm : measure_ok m) (hcs : calls_ok_b m cs = true) :
    ∀ cs1 cs2, cs = cs1 ++ cs2 →
      sum_ticks (exec_calls m cs1).notes = (exec_calls m cs1).num_ticks := by
  rintro cs1 cs2 rfl
  exact (exec_calls_preserves m cs1 hm (calls_ok_b_append_left cs1 m cs2 hcs)).1

/-- C1 (witness): the amended invariant theorem applied to a fresh 4/4
measure and the call sequence add quarter note at position 1/2 then remove
it at tick 8. -/
theorem C1_witness :
    measure_ok (Measure.mk 4 4 16 [REvent.rest 1]) ∧
    calls_ok_b (Measure.mk 4 4 16 [REvent.rest 1])
      [MCall.add ⟨60, 4, 4, 1/2, 0⟩, MCall.remove ⟨60, 4, 4, 1/2, 8⟩] = true ∧
    sum_ticks (exec_calls (Measure.mk 4 4 16 [REvent.rest 1])
        [MCall.add ⟨60, 4, 4, 1/2, 0⟩]).notes =
      (exec_calls (Measure.mk 4 4 16 [REvent.rest 1])
        [MCall.add ⟨60, 4, 4, 1/2, 0⟩]).num_ticks := by
  have hm : measure_ok (Measure.mk 4 4 16 [REvent.rest 1]) := by decide
  have hcall : call_ok_b (Measure.mk 4 4 16 [REvent.rest 1])
      (MCall.add ⟨60, 4, 4, 1/2, 0⟩) = true := by
    simp only [call_ok_b]
    rw [show quantize_position (Measure.mk 4 4 16 [REvent.rest 1]).num_ticks
        (NoteInfo.mk 60 4 4 (1/2) 0).quantization
        (NoteInfo.mk 60 4 4 (1/2) 0).x_position = some 8 from eval_quantize_16_4_half]
    simp only [Bool.and_eq_true, decide_eq_true_eq]
    exact ⟨by norm_num [info_valid, note_lengths], by decide⟩
  have hcs : calls_ok_b (Measure.mk 4 4 16 [REvent.rest 1])
      [MCall.add ⟨60, 4, 4, 1/2, 0⟩, MCall.remove ⟨60, 4, 4, 1/2, 8⟩] = true := by
    simp only [calls_ok_b, hcall, Bool.true_and]
    rfl
  exact ⟨hm, hcs, C1_invariant_amended _ _ hm hcs
    [MCall.add ⟨60, 4, 4, 1/2, 0⟩] [MCall.remove ⟨60, 4, 4, 1/2, 8⟩] rfl⟩

/-- C2: the worked scenario.  A measure of 4 beats of quarter value has
num_ticks = 16 and initial events [Rest(whole)]; quantizing fractional
position 1/2 at quarter resolution gives tick 8; add_note with pitch 60,
quarter length then yields exactly
[Rest(half), Note(quarter, {60}), Rest(quarter)]. -/
theorem C2_worked_scenario :
    (mk_measure 4 4).num_ticks = 16 ∧
    (mk_measure 4 4).notes = [REvent.rest 1] ∧
    quantize_position 16 4 (1/2) = some 8 ∧
    add_note (mk_measure 4 4) ⟨60, 4, 4, 1/2, 0⟩ =
      some (⟨4, 4, 16, [REvent.rest 2, REvent.note 4 [60], REvent.rest 4]⟩, true) :=
  ⟨by decide, by decide, eval_quantize_16_4_half, eval_add_quarter_at_half⟩

/-- C3 (counterexample): the claim as stated is false.  In a 6-tick measure
(3 beats of eighth) with quarter resolution (step 4, which does not divide
6) and fraction 11/12, the end-of-measure candidate 6 is strictly closer to
the position 11/2 than the returned tick 4 is, yet the code returns 4: the
seeded end-boundary best guess is written to a dead variable
(quantized_tick_position), while the returned variable
(quantized_ticks_position) is only ever assigned inside the loop. -/
theorem C3_counterexample :
    quantize_position 6 4 (11/12) = some 4 ∧
    ¬ (6 % note_length_to_ticks 4 = 0) ∧
    |(6 : ℚ) - (11/12) * 6| < |(4 : ℚ) - (11/12) * 6| := by
  refine ⟨eval_quantize_6_4, by decide, ?_⟩
  rw [show |(6 : ℚ) - (11/12) * 6| = 1/2 from by
    rw [show (6 : ℚ) - (11/12) * 6 = 1/2 from by norm_num]
    exact abs_of_nonneg (by norm_num)]
  rw [show |(4 : ℚ) - (11/12) * 6| = 3/2 from by
    rw [show (4 : ℚ) - (11/12) * 6 = -(3/2) from by norm_num, abs_neg]
    exact abs_of_nonneg (by norm_num)]
  norm_num

/-- C3 (amended): for every supported resolution and fraction in [0,1) on a
nonempty measure, quantize_position always returns a defined tick; the
returned tick is a multiple of the resolution step strictly below num_ticks
that minimizes the absolute distance to fraction × num_ticks among all such
multiples, ties broken in favor of the smaller candidate.  The end-of-measure
tick is never returned: the seeded initial best guess goes to a variable the
function does not return. -/
theorem C3_quantize_amended (num_ticks quantization : Nat) (position : ℚ)
    (hq : quantization ∈ note_lengths) (hnt : 1 ≤ num_ticks)
    (h0 : 0 ≤ position) (h1 : position < 1) :
    ∃ t, quantize_position num_ticks quantization position = some t ∧
      (∃ j, t = j * note_length_to_ticks quantization) ∧
      t < num_ticks ∧
      (∀ j, j * note_length_to_ticks quantization < num_ticks →
        |(t : ℚ) - position * num_ticks| ≤
          |((j * note_length_to_ticks quantization : Nat) : ℚ) - position * num_ticks|) ∧
      (∀ j, j * note_length_to_ticks quantization < num_ticks →
        |((j * note_length_to_ticks quantization : Nat) : ℚ) - position * num_ticks| =
          |(t : ℚ) - position * num_ticks| →
        t ≤ j * note_length_to_ticks quantization) :=
  quantize_position_spec num_ticks quantization position hq hnt h0 h1

/-- C3 (witness): the amended quantizer theorem applied at num_ticks 16,
quarter resolution and fraction 1/2. -/
theorem C3_witness :
    ((4 : Nat) ∈ note_lengths ∧ (1 : Nat) ≤ 16 ∧ (0 : ℚ) ≤ 1/2 ∧ (1/2 : ℚ) < 1) ∧
    (∃ t, quantize_position 16 4 (1/2) = some t ∧
      (∃ j, t = j * note_length_to_ticks 4) ∧
      t < 16 ∧
      (∀ j, j * note_length_to_ticks 4 < 16 →
        |(t : ℚ) - (1/2) * 16| ≤
          |((j * note_length_to_ticks 4 : Nat) : ℚ) - (1/2) * 16|) ∧
      (∀ j, j * note_length_to_ticks 4 < 16 →
        |((j * note_length_to_ticks 4 : Nat) : ℚ) - (1/2) * 16| =
          |(t : ℚ) - (1/2) * 16| →
        t ≤ j * note_length_to_ticks 4)) :=
  ⟨⟨by decide, by decide, by norm_num, by norm_num⟩,
    C3_quantize_amended 16 4 (1/2) (by decide) (by decide) (by norm_num) (by norm_num)⟩

/-- C4: evaluation at the failing input.  In a measure of 8 ticks (2 beats
of quarter), calculate_beat_level(1) returns 8, although 1 is not divisible
by note_length_to_ticks 8 = 2, while the denomination 16 (sixteenth, the
longest denomination actually satisfying both conditions of the claim)
divides 1 and fits; the value 8 escapes from the this.num_ticks
initialization of the accumulator, which conflates a tick count with a
denomination encoding. -/
theorem C4_beat_level_bug :
    calculate_beat_level 8 1 = 8 ∧
    ¬ (1 % note_length_to_ticks 8 = 0) ∧
    1 % note_length_to_ticks 16 = 0 ∧
    note_length_to_ticks 16 ≤ 8 ∧
    (16 : Nat) ∈ note_lengths ∧
    ¬ (8 : Nat) = 16 := by decide

/-- C5: for every pair of ticks a ≤ b ≤ num_ticks, fill_space_with_rests
terminates (it is a total function) and returns an ordered sequence
consisting only of Rest events with supported lengths whose tick lengths sum
exactly to b - a.  Alignment to the smallest supported tick unit is
automatic since a sixteenth is exactly one tick. -/
theorem C5_fill_rests (num_ticks a b : Nat) (h1 : a ≤ b) (h2 : b ≤ num_ticks) :
    sum_ticks (fill_space_with_rests num_ticks a b) = b - a ∧
    ∀ e ∈ fill_space_with_rests num_ticks a b, ∃ d, d ∈ note_lengths ∧ e = REvent.rest d :=
  fill_space_spec num_ticks a b (by omega)

/-- C5 (witness): the fill theorem applied to the interval [12,16) of a
16-tick measure. -/
theorem C5_witness :
    ((12 : Nat) ≤ 16 ∧ (16 : Nat) ≤ 16) ∧
    (sum_ticks (fill_space_with_rests 16 12 16) = 16 - 12 ∧
      ∀ e ∈ fill_space_with_rests 16 12 16, ∃ d, d ∈ note_lengths ∧ e = REvent.rest d) :=
  ⟨⟨by decide, by decide⟩, C5_fill_rests 16 12 16 (by decide) (by decide)⟩

/-- C6 (counterexample): the claim as stated is false for spans exceeding
num_ticks.  With num_ticks = 16, ceiling whole (1) and remaining span 33,
the whole note is a candidate (1 ≥ 1 and ticks 16 ≤ 33) minimizing
33 - ticks(d), but the code returns null, because the minimum-difference
accumulator starts at this.num_ticks = 16 and 33 - 16 = 17 is not below
it. -/
theorem C6_counterexample :
    optimal_rest_length 16 1 33 = none ∧
    (1 : Nat) ∈ note_lengths ∧ (1 : Nat) ≤ 1 ∧ note_length_to_ticks 1 ≤ 33 := by decide

/-- C6 (amended): for every supported ceiling denomination c and every
remaining span 0 < r ≤ num_ticks, optimal_rest_length returns some
denomination d with c ≤ d and ticks(d) ≤ r minimizing r - ticks(d) among
all supported d2 with c ≤ d2 and ticks(d2) ≤ r; ties (which force equal
tick counts, hence equal denominations) resolve to the first denomination
in the fixed enumeration order. -/
theorem C6_optimal_amended (num_ticks c r : Nat) (hc : c ∈ note_lengths)
    (hr1 : 1 ≤ r) (hr2 : r ≤ num_ticks) :
    ∃ d, optimal_rest_length num_ticks c r = some d ∧ d ∈ note_lengths ∧ c ≤ d ∧
      note_length_to_ticks d ≤ r ∧
      (∀ d2 ∈ note_lengths, c ≤ d2 → note_length_to_ticks d2 ≤ r →
        r - note_length_to_ticks d ≤ r - note_length_to_ticks d2) ∧
      (∀ d2 ∈ note_lengths, c ≤ d2 → note_length_to_ticks d2 ≤ r →
        r - note_length_to_ticks d2 = r - note_length_to_ticks d → d ≤ d2) := by
  have hc16 : c ≤ 16 := by
    have h := hc
    simp only [note_lengths, List.mem_cons, List.not_mem_nil, or_false] at h
    rcases h with rfl | rfl | rfl | rfl | rfl <;> omega
  obtain ⟨d, hd⟩ := optimal_rest_length_isSome num_ticks c r hr1 hr2 hc16
  obtain ⟨hmem, hcd, hle⟩ := optimal_rest_length_mem _ _ _ _ hd
  have hbest := optimal_rest_length_best _ _ _ _ hr2 hd
  have hinj : ∀ x ∈ note_lengths, ∀ y ∈ note_lengths,
      note_length_to_ticks x = note_length_to_ticks y → x = y := by decide
  refine ⟨d, hd, hmem, hcd, hle, ?_, ?_⟩
  · intro d2 h2 h3 h4
    have := hbest d2 h2 h3 h4
    omega
  · intro d2 h2 h3 h4 h5
    have hb := hbest d2 h2 h3 h4
    have heq : note_length_to_ticks d2 = note_length_to_ticks d := by omega
    have := hinj d2 h2 d hmem heq
    omega

/-- C6 (witness): the amended optimal-rest theorem applied at num_ticks 16,
ceiling quarter (4) and span 7 (best fit: the quarter itself). -/
theorem C6_witness :
    ((4 : Nat) ∈ note_lengths ∧ (1 : Nat) ≤ 7 ∧ (7 : Nat) ≤ 16) ∧
    (∃ d, optimal_rest_length 16 4 7 = some d ∧ d ∈ note_lengths ∧ 4 ≤ d ∧
      note_length_to_ticks d ≤ 7 ∧
      (∀ d2 ∈ note_lengths, 4 ≤ d2 → note_length_to_ticks d2 ≤ 7 →
        7 - note_length_to_ticks d ≤ 7 - note_length_to_ticks d2) ∧
      (∀ d2 ∈ note_lengths, 4 ≤ d2 → note_length_to_ticks d2 ≤ 7 →
        7 - note_length_to_ticks d2 = 7 - note_length_to_ticks d → d ≤ d2)) :=
  ⟨⟨by decide, by decide, by decide⟩,
    C6_optimal_amended 16 4 7 (by decide) (by decide) (by decide)⟩

/-- C8: evaluation at the failing input.  On a fresh 4/4 measure, a
remove_note request targeting quantized tick 4, which is inside the measure
but not the start of any Note, makes the scan exhaust the event sequence and
dereference this.notes[notes.length] = undefined (a TypeError crash,
modelled by none) instead of returning a typed failure; no mutation happens
before the crash, so the events are untouched, but no error value is ever
handed to the caller (remove_note would have returned true
unconditionally). -/
theorem C8_remove_crash :
    measure_ok (mk_measure 4 4) ∧
    (4 : Nat) < (mk_measure 4 4).num_ticks ∧
    remove_note (mk_measure 4 4) ⟨60, 4, 4, 1/4, 4⟩ = none := by
  refine ⟨by decide, by decide, ?_⟩
  rw [eval_mk_4_4]
  decide

/-- C10: remove_note never invokes quantize_position; it reads the request's
quantized_tick_position field (and pitch) only, so two remove_note requests
that agree on quantized_tick_position and pitch but differ arbitrarily in
quantization and x_position produce identical results on every measure. -/
theorem C10_remove_ignores_quantization (m : Measure) (info1 info2 : NoteInfo)
    (hq : info1.quantized_tick_position = info2.quantized_tick_position)
    (hp : info1.pitch = info2.pitch) :
    remove_note m info1 = remove_note m info2 := by
  unfold remove_note remove_note_from_measure
  rw [remove_loop_congr m.notes info1 info2 hq hp (m.notes.length + 1) 0 0]

/-- C10 (witness): two requests with the same target tick 8 and pitch 60 but
different quantization resolutions and fractional positions remove
identically on a fresh 4/4 measure. -/
theorem C10_witness :
    (⟨60, 4, 4, 1/2, 8⟩ : NoteInfo).quantized_tick_position =
      (⟨60, 2, 8, 1/4, 8⟩ : NoteInfo).quantized_tick_position ∧
    (⟨60, 4, 4, 1/2, 8⟩ : NoteInfo).pitch = (⟨60, 2, 8, 1/4, 8⟩ : NoteInfo).pitch ∧
    remove_note ⟨4, 4, 16, [REvent.rest 1]⟩ ⟨60, 4, 4, 1/2, 8⟩ =
      remove_note ⟨4, 4, 16, [REvent.rest 1]⟩ ⟨60, 2, 8, 1/4, 8⟩ :=
  ⟨rfl, rfl, C10_remove_ignores_quantization _ _ _ rfl rfl⟩

/-- C7 (counterexample): the claim as stated is false when the new note is
longer than the replaced rest.  On a fresh 2-beats-of-quarter measure
(num_ticks 8, events [Rest(half)]), adding a whole note at quantized tick 0
(the start tick of the existing rest) removes the rest and inserts the note,
but the leftover interval [0 + 16, 8) is empty under the code's arithmetic,
nothing is refilled, and the events then sum to 16 ≠ 8. -/
theorem C7_counterexample :
    measure_ok (mk_measure 2 4) ∧
    quantize_position 8 2 0 = some 0 ∧
    (mk_measure 2 4).notes = [REvent.rest 2] ∧
    sum_ticks ((mk_measure 2 4).notes.take 0) = 0 ∧
    add_note (mk_measure 2 4) ⟨60, 1, 2, 0, 0⟩ =
      some (⟨2, 4, 8, [REvent.note 1 [60]]⟩, true) ∧
    (mk_measure 2 4).num_ticks = 8 ∧
    sum_ticks [REvent.note 1 [60]] = 16 :=
  ⟨by decide, eval_quantize_8_2_0, by decide, by decide,
    eval_add_whole_in_two_beats, by decide, by decide⟩

/-- C7 (amended): for every measure satisfying the duration invariant and
every add_note request whose quantized target tick is the start tick of an
existing Rest event and whose note is no longer than that rest, the engine
removes the Rest, inserts the Note at the same index, fills the leftover
interval from the note's end to the old rest's end with rests, and the
events again sum to num_ticks. -/
theorem C7_exact_fit_replace (m : Measure) (info : NoteInfo) (qtp k len : Nat)
    (hm : measure_ok m)
    (hq : quantize_position m.num_ticks info.quantization info.x_position = some qtp)
    (hk : k < m.notes.length)
    (hrest : m.notes.getD k REvent.nullRest = REvent.rest len)
    (hstart : sum_ticks (m.notes.take k) = qtp)
    (hfit : note_length_to_ticks info.note_length ≤ note_length_to_ticks len) :
    add_note m info =
      some (Measure.mk m.num_beats m.beat_value m.num_ticks
        (replace_result m.num_ticks m.notes k len
          { info with quantized_tick_position := qtp }), true) ∧
    sum_ticks (replace_result m.num_ticks m.notes k len
      { info with quantized_tick_position := qtp }) = m.num_ticks := by
  have hproj : ({ info with quantized_tick_position := qtp } : NoteInfo).quantized_tick_position
      = qtp := rfl
  have hgd : m.notes.getD k REvent.nullRest = m.notes.get ⟨k, hk⟩ :=
    List.getD_eq_getElem m.notes _ hk
  have hget : m.notes.get ⟨k, hk⟩ = REvent.rest len := by rw [← hgd, hrest]
  have hvr : (REvent.rest len).valid_b = true := by
    rw [← hget]
    exact hm.2 _ (m.notes.get_mem _ _)
  have hlmem : len ∈ note_lengths := valid_b_len_mem len (by
    simpa [REvent.valid_b] using hvr)
  have hLpos := note_length_to_ticks_pos len hlmem
  have hticks : ticksOfEvent (m.notes.get ⟨k, hk⟩) = note_length_to_ticks len := by
    rw [hget]
    rfl
  have hsum2 : sum_ticks (m.notes.take (k + 1)) = qtp + note_length_to_ticks len := by
    rw [sum_ticks_take_succ m.notes k hk, hstart, hticks]
  have htle := sum_ticks_take_le m.notes (k + 1)
  have hltsum : qtp < sum_ticks m.notes := by omega
  obtain ⟨k2, hk2, h21, h22, hcase⟩ := place_note_loop_struct m.num_ticks
    { info with quantized_tick_position := qtp } m.notes hm.2 hltsum
    (m.notes.length + 1) 0 0 (by omega) (by omega) (by simp [sum_ticks]) (by omega)
  rw [hproj] at h21 h22
  have hkeq : k2 = k := containing_index_unique m.notes qtp k2 k h21 h22
    (le_of_eq hstart) (by omega)
  subst hkeq
  rcases hcase with ⟨hknp, hknote, hplace⟩ | ⟨len2, hlen2, hknp, hplace⟩ | ⟨hklt, hplace⟩
  · rw [hrest] at hknote
    simp [REvent.is_note] at hknote
  · rw [hrest] at hlen2
    have hlen_eq : len = len2 := by injection hlen2
    subst hlen_eq
    have hplace2 : place_note_in_measure m.num_ticks m.notes
        ({ info with quantized_tick_position := qtp }) =
        some (replace_result m.num_ticks m.notes k2 len
          ({ info with quantized_tick_position := qtp })) := hplace
    constructor
    · unfold add_note
      rw [hq]
      dsimp only
      rw [hplace2]
    · have hparts := sum_ticks_parts m.notes k2 hk
      rw [hticks] at hparts
      have hLnt : note_length_to_ticks len ≤ m.num_ticks := by
        have h := hm.1
        omega
      have hfill := fill_space_spec m.num_ticks
        (qtp + note_length_to_ticks info.note_length)
        (qtp + note_length_to_ticks len) (by omega)
      unfold replace_result
      dsimp only
      rw [sum_ticks_append, sum_ticks_cons, sum_ticks_append]
      rw [hfill.1]
      simp only [ticksOfEvent]
      have h := hm.1
      omega
  · rw [hproj] at hklt
    omega

/-- C7 (witness): the amended exact-fit replace theorem applied to a fresh
4/4 measure with a quarter note targeted at tick 0, the start of the initial
whole rest. -/
theorem C7_witness :
    (measure_ok (Measure.mk 4 4 16 [REvent.rest 1]) ∧
      quantize_position 16 4 0 = some 0 ∧
      0 < (Measure.mk 4 4 16 [REvent.rest 1]).notes.length ∧
      (Measure.mk 4 4 16 [REvent.rest 1]).notes.getD 0 REvent.nullRest = REvent.rest 1 ∧
      sum_ticks ((Measure.mk 4 4 16 [REvent.rest 1]).notes.take 0) = 0 ∧
      note_length_to_ticks 4 ≤ note_length_to_ticks 1) ∧
    add_note (Measure.mk 4 4 16 [REvent.rest 1]) ⟨60, 4, 4, 0, 0⟩ =
      some (⟨4, 4, 16, replace_result 16 [REvent.rest 1] 0 1 ⟨60, 4, 4, 0, 0⟩⟩, true) ∧
    sum_ticks (replace_result 16 [REvent.rest 1] 0 1 ⟨60, 4, 4, 0, 0⟩) = 16 :=
  ⟨⟨by decide, eval_quantize_16_4_0, by decide, by decide, by decide, by decide⟩,
    C7_exact_fit_replace (Measure.mk 4 4 16 [REvent.rest 1]) ⟨60, 4, 4, 0, 0⟩ 0 0 1
      (by decide) eval_quantize_16_4_0 (by decide) (by decide) (by decide) (by decide)⟩

/-- C9 (counterexample): the claim as stated is false when the add merges
into an existing note.  On a 16-tick measure holding a single whole note of
pitch 61, adding pitch 60 at the same tick merges into that note; the paired
remove_note deletes only pitch 60 again, and the event stays a note — it is
never replaced by a rest, contradicting the claimed replace-by-rest shape. -/
theorem C9_counterexample :
    measure_ok ⟨4, 4, 16, [REvent.note 1 [61]]⟩ ∧
    info_valid ⟨60, 4, 4, 0, 0⟩ ∧
    add_note ⟨4, 4, 16, [REvent.note 1 [61]]⟩ ⟨60, 4, 4, 0, 0⟩ =
      some (⟨4, 4, 16, [REvent.note 1 [61, 60]]⟩, true) ∧
    remove_note ⟨4, 4, 16, [REvent.note 1 [61, 60]]⟩ ⟨60, 4, 4, 0, 0⟩ =
      some (⟨4, 4, 16, [REvent.note 1 [61]]⟩, true) ∧
    (REvent.note 1 [61]).is_rest = false ∧
    sum_ticks [REvent.note 1 [61]] = 16 :=
  ⟨by decide, by norm_num [info_valid, note_lengths], eval_add_merge,
    by decide, by decide, by decide⟩

/-- C9 (amended): for every measure satisfying the duration invariant, every
request obeying the caller contract whose quantized note fits its containing
event, and whose target tick does not start at an existing note (so the add
does not merge), add_note places a fresh single-pitch note at some index k
whose preceding events sum to the quantized tick; remove_note with the same
pitch and that quantized tick then turns exactly that event into a rest of
the note's own length by set — no re-fill — and the total tick sum is again
num_ticks. -/
theorem C9_add_then_remove (m : Measure) (info : NoteInfo) (qtp : Nat)
    (hm : measure_ok m)
    (hiv : info_valid info)
    (hnt : 1 ≤ m.num_ticks)
    (hq : quantize_position m.num_ticks info.quantization info.x_position = some qtp)
    (hfits : add_fits m.notes qtp (note_length_to_ticks info.note_length))
    (hnomerge : ∀ j, j < m.notes.length → sum_ticks (m.notes.take j) = qtp →
      (m.notes.getD j REvent.nullRest).is_note = false) :
    ∃ notes1 k, k < notes1.length ∧
      add_note m info = some (Measure.mk m.num_beats m.beat_value m.num_ticks notes1, true) ∧
      notes1.getD k REvent.nullRest =
        REvent.note info.note_length [translate_midi_number_to_pitch info.pitch] ∧
      sum_ticks (notes1.take k) = qtp ∧
      remove_note (Measure.mk m.num_beats m.beat_value m.num_ticks notes1)
          { info with quantized_tick_position := qtp } =
        some (Measure.mk m.num_beats m.beat_value m.num_ticks
          (notes1.set k (REvent.rest info.note_length)), true) ∧
      sum_ticks (notes1.set k (REvent.rest info.note_length)) = m.num_ticks := by
  obtain ⟨t, ht, _, htlt, _, _⟩ := quantize_position_spec m.num_ticks info.quantization
    info.x_position hiv.2.1 hnt hiv.2.2.1 hiv.2.2.2
  rw [hq] at ht
  have htq : t = qtp := by
    injection ht with hv
    exact hv.symm
  subst t
  have hltsum : qtp < sum_ticks m.notes := by
    rw [hm.1]
    exact htlt
  have hproj : ({ info with quantized_tick_position := qtp } : NoteInfo).quantized_tick_position
      = qtp := rfl
  obtain ⟨k, hk, h21, h22, hcase⟩ := place_note_loop_struct m.num_ticks
    { info with quantized_tick_position := qtp } m.notes hm.2 (by rw [hproj]; exact hltsum)
    (m.notes.length + 1) 0 0 (by omega) (by omega) (by simp [sum_ticks]) (by omega)
  rw [hproj] at h21 h22
  have hAlen : (m.notes.take k).length = k := by
    rw [List.length_take]
    omega
  rcases hcase with ⟨hknp, hknote, hplace⟩ | ⟨len, hlen, hknp, hplace⟩ | ⟨hklt, hplace⟩
  · rw [hproj] at hknp
    have h0 := hnomerge k hk hknp
    rw [h0] at hknote
    simp at hknote
  · rw [hproj] at hknp
    have hplace2 : place_note_in_measure m.num_ticks m.notes
        { info with quantized_tick_position := qtp } =
        some (replace_result m.num_ticks m.notes k len
          { info with quantized_tick_position := qtp }) := hplace
    have hpres := place_preserves m.num_ticks { info with quantized_tick_position := qtp }
      m.notes _ hm.2 (le_of_eq hm.1) hiv.1 hfits hplace2
    set notes1 := replace_result m.num_ticks m.notes k len
      { info with quantized_tick_position := qtp } with hnotes1
    have hgetd : notes1.getD k REvent.nullRest =
        REvent.note info.note_length [translate_midi_number_to_pitch info.pitch] := by
      rw [hnotes1]
      unfold replace_result
      dsimp only
      exact getD_at_append2 _ _ _ _ hAlen
    have htake1 : sum_ticks (notes1.take k) = qtp := by
      rw [hnotes1]
      unfold replace_result
      dsimp only
      rw [take_at_append2 _ _ k hAlen]
      exact hknp
    have hklen : k < notes1.length := by
      rw [hnotes1]
      unfold replace_result
      simp only [List.length_append, List.length_cons, hAlen]
      omega
    have hadd : add_note m info =
        some (Measure.mk m.num_beats m.beat_value m.num_ticks notes1, true) := by
      unfold add_note
      rw [hq]
      dsimp only
      rw [hplace2]
    have hfin := add_then_remove_finish m info qtp notes1 k hklen hpres.2
      (by rw [hpres.1]; exact hm.1) hgetd htake1
    exact ⟨notes1, k, hklen, hadd, hgetd, htake1, hfin.1, hfin.2⟩
  · rw [hproj] at hklt
    have hplace2 : place_note_in_measure m.num_ticks m.notes
        { info with quantized_tick_position := qtp } =
        some (split_result m.num_ticks m.notes k
          { info with quantized_tick_position := qtp }) := hplace
    have hpres := place_preserves m.num_ticks { info with quantized_tick_position := qtp }
      m.notes _ hm.2 (le_of_eq hm.1) hiv.1 hfits hplace2
    set notes1 := split_result m.num_ticks m.notes k
      { info with quantized_tick_position := qtp } with hnotes1
    have hassoc : notes1 =
        (m.notes.take k ++ fill_space_with_rests m.num_ticks (sum_ticks (m.notes.take k)) qtp) ++
        (REvent.note info.note_length [translate_midi_number_to_pitch info.pitch] ::
          (fill_space_with_rests m.num_ticks (qtp + note_length_to_ticks info.note_length)
            (sum_ticks (m.notes.take (k + 1))) ++ m.notes.drop (k + 1))) := by
      rw [hnotes1]
      unfold split_result
      dsimp only
    have hfillB := fill_space_spec m.num_ticks (sum_ticks (m.notes.take k)) qtp (by omega)
    have hA2len : (m.notes.take k ++
        fill_space_with_rests m.num_ticks (sum_ticks (m.notes.take k)) qtp).length =
        k + (fill_space_with_rests m.num_ticks (sum_ticks (m.notes.take k)) qtp).length := by
      rw [List.length_append, hAlen]
    have hgetd : notes1.getD
        (k + (fill_space_with_rests m.num_ticks (sum_ticks (m.notes.take k)) qtp).length)
        REvent.nullRest =
        REvent.note info.note_length [translate_midi_number_to_pitch info.pitch] := by
      rw [hassoc]
      exact getD_at_append2 _ _ _ _ hA2len
    have htake1 : sum_ticks (notes1.take
        (k + (fill_space_with_rests m.num_ticks (sum_ticks (m.notes.take k)) qtp).length)) =
        qtp := by
      rw [hassoc]
      rw [take_at_append2 _ _ _ hA2len]
      rw [sum_ticks_append, hfillB.1]
      omega
    have hklen : (k + (fill_space_with_rests m.num_ticks
        (sum_ticks (m.notes.take k)) qtp).length) < notes1.length := by
      rw [hassoc]
      simp only [List.length_append, List.length_cons, hAlen]
      omega
    have hadd : add_note m info =
        some (Measure.mk m.num_beats m.beat_value m.num_ticks notes1, true) := by
      unfold add_note
      rw [hq]
      dsimp only
      rw [hplace2]
    have hfin := add_then_remove_finish m info qtp notes1
      (k + (fill_space_with_rests m.num_ticks (sum_ticks (m.notes.take k)) qtp).length)
      hklen hpres.2 (by rw [hpres.1]; exact hm.1) hgetd htake1
    exact ⟨notes1,
      k + (fill_space_with_rests m.num_ticks (sum_ticks (m.notes.take k)) qtp).length,
      hklen, hadd, hgetd, htake1, hfin.1, hfin.2⟩

/-- C9 (witness): the amended add-then-remove theorem applied to a fresh
4/4 measure and a quarter-note request for pitch 60 quantized to tick 8. -/
theorem C9_witness :
    (measure_ok (Measure.mk 4 4 16 [REvent.rest 1]) ∧
      info_valid ⟨60, 4, 4, 1/2, 0⟩ ∧
      quantize_position 16 4 (1/2) = some 8) ∧
    (∃ notes1 k, k < notes1.length ∧
      add_note (Measure.mk 4 4 16 [REvent.rest 1]) ⟨60, 4, 4, 1/2, 0⟩ =
        some (Measure.mk 4 4 16 notes1, true) ∧
      notes1.getD k REvent.nullRest = REvent.note 4 [60] ∧
      sum_ticks (notes1.take k) = 8 ∧
      remove_note (Measure.mk 4 4 16 notes1) ⟨60, 4, 4, 1/2, 8⟩ =
        some (Measure.mk 4 4 16 (notes1.set k (REvent.rest 4)), true) ∧
      sum_ticks (notes1.set k (REvent.rest 4)) = 16) :=
  ⟨⟨by decide, by norm_num [info_valid, note_lengths], eval_quantize_16_4_half⟩,
    C9_add_then_remove (Measure.mk 4 4 16 [REvent.rest 1]) ⟨60, 4, 4, 1/2, 0⟩ 8
      (by decide) (by norm_num [info_valid, note_lengths]) (by decide)
      eval_quantize_16_4_half (by decide) (by decide)⟩

end LiveScore
